import Mathlib

/-!
Markov-chain name generator (`generator.go`): embedding and verified properties

The Go package keeps, per variant label, a `chain`
(`map[string]map[interface{}]int`) learnt from a corpus of names by `SeedData`,
rescaled by `chain.scale`, and sampled by `chain.selectLink` / `chain.markovName`.

Modelling conventions.

* A Go `string` is its byte sequence (`GoString = List Nat`, bytes below 256):
  `len(s)` is the byte count, `s[0]` the first byte, and `range s` decodes UTF-8
  exactly as the Go runtime does (an invalid byte yields U+FFFD, width 1).
* A Go map is an association list with pairwise different keys, in insertion
  order.  Wherever the Go code ranges over a map whose order can influence the
  result (`selectLink`, `Variants`) the walk order is an explicit argument.
* `interface{}` tokens are the tagged union `Token`; a failed type assertion,
  like an index out of range, is the outcome `Run.panic`.
* Counts and weights are natural numbers (a Go `int` cannot overflow here before
  the corpus exceeds 2^48 bytes).
* `math.Floor(math.Pow(float64(count), 1.3))` is taken in exact arithmetic:
  `scaled count` is the largest `w` with `w ^ 10 ≤ count ^ 13`.
* `rand.Float64()` is not modelled bit by bit: a `Draw` gives, for each stored
  total `length`, the index `int(math.Floor(rand.Float64() * float64(length)))`;
  a valid draw keeps that index below a positive `length`.
-/

namespace NameGenerator

/-! ## Strings, runes and UTF-8 -/

/-- Go strings are byte sequences. -/
abbrev GoString := List Nat

/-- Go runes (code points). -/
abbrev Rune := Nat

/-- The replacement character `utf8.RuneError`. -/
def runeError : Rune := 0xFFFD

/-- The conversion `string(r)` of a rune, that is `utf8.AppendRune`. -/
def encodeRune (r : Rune) : GoString :=
  if r < 0x80 then [r]
  else if r < 0x800 then [0xC0 + r / 64, 0x80 + r % 64]
  else if (0xD800 ≤ r ∧ r ≤ 0xDFFF) ∨ 0x10FFFF < r then [0xEF, 0xBF, 0xBD]
  else if r < 0x10000 then [0xE0 + r / 4096, 0x80 + r / 64 % 64, 0x80 + r % 64]
  else [0xF0 + r / 262144, 0x80 + r / 4096 % 64, 0x80 + r / 64 % 64, 0x80 + r % 64]

/-- One step of `range` over a string (`utf8.DecodeRuneInString`): the rune at
the front of `s` and its width in bytes. -/
def decodeRune (s : GoString) : Rune × Nat :=
  match s with
  | [] => (runeError, 0)
  | s0 :: t =>
    if s0 < 0x80 then (s0, 1)
    else if s0 < 0xC2 ∨ 0xF4 < s0 then (runeError, 1)
    else
      let sz := if s0 < 0xE0 then 2 else if s0 < 0xF0 then 3 else 4
      let lo := if s0 = 0xE0 then 0xA0 else if s0 = 0xF0 then 0x90 else 0x80
      let hi := if s0 = 0xED then 0x9F else if s0 = 0xF4 then 0x8F else 0xBF
      if s.length < sz then (runeError, 1)
      else
        match t with
        | [] => (runeError, 1)
        | s1 :: t1 =>
          if s1 < lo ∨ hi < s1 then (runeError, 1)
          else if sz ≤ 2 then (s0 % 32 * 64 + s1 % 64, 2)
          else
            match t1 with
            | [] => (runeError, 1)
            | s2 :: t2 =>
              if s2 < 0x80 ∨ 0xBF < s2 then (runeError, 1)
              else if sz ≤ 3 then (s0 % 16 * 4096 + s1 % 64 * 64 + s2 % 64, 3)
              else
                match t2 with
                | [] => (runeError, 1)
                | s3 :: _ =>
                  if s3 < 0x80 ∨ 0xBF < s3 then (runeError, 1)
                  else (s0 % 8 * 262144 + s1 % 64 * 4096 + s2 % 64 * 64 + s3 % 64, 4)

/-- The runes visited by `for _, c := range s`, with `fuel` bounding the number
of iterations. -/
def runesAux : Nat → GoString → List Rune
  | 0, _ => []
  | fuel + 1, s =>
    match s with
    | [] => []
    | _ :: _ => (decodeRune s).1 :: runesAux fuel (s.drop (decodeRune s).2)

/-- The runes visited by `for _, c := range s` (every step consumes at least one
byte, so `len(s)` iterations are enough). -/
def runes (s : GoString) : List Rune := runesAux s.length s

/-- The bytes of a Lean string literal, as the Go compiler stores them. -/
def goString (s : String) : GoString := s.toList.flatMap (fun ch => encodeRune ch.toNat)

/-- A byte matched by the regular expression class `\s` (tab, newline, form
feed, carriage return, space). -/
def isSpace (b : Nat) : Bool := b = 9 || b = 10 || b = 12 || b = 13 || b = 32

/-- Scanning loop of `splitSpace`: `cur` is the piece being read, `inSep` says
that the previous byte belonged to a separator. -/
def splitAux : GoString → GoString → Bool → List GoString
  | [], cur, _ => [cur]
  | b :: rest, cur, inSep =>
    if isSpace b then
      if inSep then splitAux rest [] true else cur :: splitAux rest [] true
    else splitAux rest (cur ++ [b]) false

/-- The library call `regexp.MustCompile("\\s+").Split(v, -1)`: the pieces of `v`
between maximal runs of `\s` bytes, empty pieces at both ends included. -/
def splitSpace (v : GoString) : List GoString := splitAux v [] false

/-- The library call `strings.Join(names, " ")`. -/
def joinSpace : List GoString → GoString
  | [] => []
  | [w] => w
  | w :: rest => w ++ 32 :: joinSpace rest

/-! ## Maps -/

/-- Map lookup `m[k]` with the `ok` flag. -/
def mapGet {κ ν : Type} [DecidableEq κ] : List (κ × ν) → κ → Option ν
  | [], _ => none
  | (k1, v) :: m, k => if k1 = k then some v else mapGet m k

/-- Map assignment `m[k] = v`. -/
def mapSet {κ ν : Type} [DecidableEq κ] : List (κ × ν) → κ → ν → List (κ × ν)
  | [], k, v => [(k, v)]
  | (k1, v1) :: m, k, v => if k1 = k then (k1, v) :: m else (k1, v1) :: mapSet m k v

/-- The keys of a map. -/
def mapKeys {κ ν : Type} (m : List (κ × ν)) : List κ := m.map Prod.fst

/-- Values of `interface{}` stored in a bag: an `int` or a `string`. -/
inductive Token where
  | int (n : Int)
  | str (s : GoString)
deriving DecidableEq, Repr

/-- The inner map `map[interface{}]int`: token to count or weight. -/
abbrev Bag := List (Token × Nat)

/-- The Go type `chain`, `map[string]map[interface{}]int`. -/
abbrev chain := List (GoString × Bag)

/-- The Go type `generator`. -/
structure generator where
  chains : List (GoString × chain)
deriving DecidableEq, Repr

/-- Outcome of running a Go function: it returns, it panics, or the model ran
out of loop iterations. -/
inductive Run (α : Type) where
  | done (a : α)
  | panic
  | noFuel
deriving DecidableEq, Repr

/-- The context key `"parts"`. -/
def kParts : GoString := goString "parts"
/-- The context key `"name_len"`. -/
def kNameLen : GoString := goString "name_len"
/-- The context key `"initial"`. -/
def kInitial : GoString := goString "initial"
/-- The auxiliary key `"table_len"`. -/
def kTableLen : GoString := goString "table_len"

/-- The function `New`. -/
def New : generator := ⟨[]⟩

/-- The method `chain.increment`. -/
def chain.increment (c : chain) (key : GoString) (token : Token) : chain :=
  match mapGet c key with
  | some v => mapSet c key (mapSet v token ((mapGet v token).getD 0 + 1))
  | none => mapSet c key (mapSet [] token 1)

/-- The weight `int(math.Trunc(math.Floor(math.Pow(float64(count), 1.3))))` in
exact arithmetic: the largest `w` with `w ^ 10 ≤ count ^ 13`. -/
def scaled (count : Nat) : Nat :=
  Nat.findGreatest (fun w => w ^ 10 ≤ count ^ 13) (count ^ 2)

/-- The sum of the weights of a bag. -/
def weightSum (v : Bag) : Nat := (v.map Prod.snd).sum

/-- The inner loop of `chain.scale` on one bag: every count is replaced by its
scaled weight. -/
def scaleBag (v : Bag) : Bag := v.map (fun tc => (tc.1, scaled tc.2))

/-- The method `chain.scale`: every bag is rescaled, `tableLen[k]` is the sum of
the rescaled weights of bag `k`, and `tableLen` is stored under `"table_len"`. -/
def chain.scale (c : chain) : chain :=
  let tableLen : Bag := c.map (fun kv => (Token.str kv.1, weightSum (scaleBag kv.2)))
  mapSet (c.map (fun kv => (kv.1, scaleBag kv.2))) kTableLen tableLen

/-- One weighted draw as the environment supplies it: `idx length` is the value
of `int(math.Floor(rand.Float64() * float64(length)))`, and `order` is the order
in which `range` walks the bag. -/
structure Draw where
  idx : Nat → Nat
  order : Bag → Bag

/-- What the Go runtime guarantees of a draw: `rand.Float64()` lies in `[0, 1)`,
and `range` visits every entry of the map once. -/
def Draw.Valid (d : Draw) : Prop :=
  d.idx 0 = 0 ∧ (∀ n, 0 < n → d.idx n < n) ∧ ∀ b, (d.order b).Perm b

/-- The placeholder `"-"` returned by `selectLink` when the walk ends. -/
def sentinel : Token := Token.str [45]

/-- The loop of `selectLink`: `t` is the running sum. -/
def walk (idx : Nat) : Bag → Nat → Token
  | [], _ => sentinel
  | (token, value) :: rest, t =>
    if idx < t + value then token else walk idx rest (t + value)

/-- The total `c["table_len"][key]` (zero when absent). -/
def chain.tableLen (c : chain) (key : GoString) : Nat :=
  ((mapGet c kTableLen).bind (fun tl => mapGet tl (Token.str key))).getD 0

/-- The method `chain.selectLink`. -/
def chain.selectLink (c : chain) (key : GoString) (d : Draw) : Token :=
  walk (d.idx (chain.tableLen c key)) (d.order ((mapGet c key).getD [])) 0

/-- The `while` loop of `markovName` that grows one word; `fuel` bounds the
number of iterations, `pos` is the number of draws consumed so far. -/
def wordLoop (c : chain) (rs : Nat → Draw) (nameLength : Int) :
    Nat → Nat → GoString → GoString → Run (GoString × Nat)
  | fuel, pos, name, lastChar =>
    if (name.length : Int) < nameLength then
      match fuel with
      | 0 => Run.noFuel
      | fuel + 1 =>
        match chain.selectLink c lastChar (rs pos) with
        | Token.str char => wordLoop c rs nameLength fuel (pos + 1) (name ++ char) char
        | Token.int _ => Run.panic
    else Run.done (name, pos)

/-- The `for i := 0; i < parts; i++` loop of `markovName`; `todo` is the number
of iterations left.  Next to every word the model keeps the target length that
was drawn for it. -/
def namesLoop (c : chain) (rs : Nat → Draw) (fuel : Nat) :
    Nat → Nat → List (Int × GoString) → Run (List (Int × GoString))
  | 0, _, names => Run.done names
  | todo + 1, pos, names =>
    match chain.selectLink c kNameLen (rs pos) with
    | Token.int nameLength =>
      match chain.selectLink c kInitial (rs (pos + 1)) with
      | Token.str char =>
        match wordLoop c rs nameLength fuel (pos + 2) char char with
        | Run.done (name, pos1) => namesLoop c rs fuel todo pos1 (names ++ [(nameLength, name)])
        | Run.panic => Run.panic
        | Run.noFuel => Run.noFuel
      | Token.int _ => Run.panic
    | Token.str _ => Run.panic

/-- The words built by `markovName`, each with its drawn target length. -/
def chain.markovWords (c : chain) (rs : Nat → Draw) (fuel : Nat) : Run (List (Int × GoString)) :=
  match chain.selectLink c kParts (rs 0) with
  | Token.int parts => namesLoop c rs fuel parts.toNat 1 []
  | Token.str _ => Run.panic

/-- The method `chain.markovName`. -/
def chain.markovName (c : chain) (rs : Nat → Draw) (fuel : Nat) : Run GoString :=
  match chain.markovWords c rs fuel with
  | Run.done names => Run.done (joinSpace (names.map Prod.snd))
  | Run.panic => Run.panic
  | Run.noFuel => Run.noFuel

/-- The message of the error built by `fmt.Errorf` in `GenerateName`. -/
def noSampleData (variant : GoString) : GoString :=
  goString "unable to generate name of type " ++ variant ++ goString ": no sample data exists"

/-- The method `generator.GenerateName`: the returned pair is the name and the
error (`none` for `nil`). -/
def generator.GenerateName (g : generator) (variant : GoString) (rs : Nat → Draw) (fuel : Nat) :
    Run (GoString × Option GoString) :=
  match mapGet g.chains variant with
  | none => Run.done ([], some (noSampleData variant))
  | some c =>
    match chain.markovName c rs fuel with
    | Run.done name => Run.done (name, none)
    | Run.panic => Run.panic
    | Run.noFuel => Run.noFuel

/-- The method `generator.Variants`; `order` is the order in which `range` walks
the registry. -/
def generator.Variants (g : generator)
    (order : List (GoString × chain) → List (GoString × chain)) : List GoString :=
  mapKeys (order g.chains)

/-- The loop `for _, c := range name[1:]` of `SeedData`. -/
def charLoop (c : chain) (lastChar : Rune) : List Rune → chain
  | [] => c
  | r :: rest =>
    charLoop (chain.increment c (encodeRune lastChar) (Token.str (encodeRune r))) r rest

/-- The loop `for _, name := range splitNames` of `SeedData`; `name[0]` on an
empty word is an index out of range. -/
def wordsLoop (c : chain) : List GoString → Run chain
  | [] => Run.done c
  | name :: rest =>
    match name with
    | [] => Run.panic
    | b0 :: tail =>
      wordsLoop
        (charLoop
          (chain.increment (chain.increment c kNameLen (Token.int name.length)) kInitial
            (Token.str (encodeRune b0)))
          b0 (runes tail))
        rest

/-- The loop `for _, v := range names` of `SeedData`. -/
def learn (c : chain) : List GoString → Run chain
  | [] => Run.done c
  | v :: rest =>
    match wordsLoop (chain.increment c kParts (Token.int (splitSpace v).length)) (splitSpace v) with
    | Run.done c1 => learn c1 rest
    | Run.panic => Run.panic
    | Run.noFuel => Run.noFuel

/-- The method `generator.SeedData`. -/
def generator.SeedData (g : generator) (label : GoString) (names : List GoString) : Run generator :=
  match learn [] names with
  | Run.done c => Run.done ⟨mapSet g.chains label (chain.scale c)⟩
  | Run.panic => Run.panic
  | Run.noFuel => Run.noFuel

/-- The chain that `SeedData` builds from the corpus `Aa`, `Ab`, `Ba`. -/
def sampleChain : chain :=
  [(kParts, [(Token.int 1, 4)]), (kNameLen, [(Token.int 2, 4)]),
   (kInitial, [(Token.str [65], 2), (Token.str [66], 1)]),
   ([65], [(Token.str [97], 1), (Token.str [98], 1)]),
   ([66], [(Token.str [97], 1)]),
   (kTableLen, [(Token.str kParts, 4), (Token.str kNameLen, 4), (Token.str kInitial, 3),
     (Token.str [65], 2), (Token.str [66], 1)])]

/-! ## Specification-side notions -/

/-- The words of a corpus: every name split on runs of whitespace. -/
def corpusWords (names : List GoString) : List GoString := names.flatMap splitSpace

/-- The weight that chain `c` gives to `token` in the bag keyed by `key`
(`none` when the bag or the entry is absent). -/
def chain.weight (c : chain) (key : GoString) (token : Token) : Option Nat :=
  (mapGet c key).bind (fun v => mapGet v token)

/-- The increments made by the loop over `name[1:]`, in order. -/
def pairEvents (lastChar : Rune) : List Rune → List (GoString × Token)
  | [] => []
  | r :: rest => (encodeRune lastChar, Token.str (encodeRune r)) :: pairEvents r rest

/-- The increments `SeedData` makes for one non-empty word, in order. -/
def wordEvents (name : GoString) : List (GoString × Token) :=
  match name with
  | [] => []
  | b0 :: tail =>
    (kNameLen, Token.int name.length) :: (kInitial, Token.str (encodeRune b0))
      :: pairEvents b0 (runes tail)

/-- The increments `SeedData` makes for one name, in order. -/
def nameEvents (v : GoString) : List (GoString × Token) :=
  (kParts, Token.int (splitSpace v).length) :: (splitSpace v).flatMap wordEvents

/-- The increments `SeedData` makes for a corpus, in order. -/
def corpusEvents (names : List GoString) : List (GoString × Token) := names.flatMap nameEvents

/-- A sequence of `increment` calls applied to a chain. -/
def replay (c : chain) (evs : List (GoString × Token)) : chain :=
  evs.foldl (fun acc e => chain.increment acc e.1 e.2) c

/-- A context key used by the learning pass: one of the three structural keys or the
encoding of a rune. -/
def IsContextKey (k : GoString) : Prop :=
  k = kParts ∨ k = kNameLen ∨ k = kInitial ∨ ∃ r, k = encodeRune r

/-- The length of a word in characters: the number of runes `range` visits. -/
def lengthInChars (w : GoString) : Nat := (runes w).length

/-- The number of corpus words that have `L` characters. -/
def wordsOfCharLength (names : List GoString) (L : Int) : Nat :=
  ((corpusWords names).filter (fun w => (lengthInChars w : Int) = L)).length

/-- The number of corpus words that have `L` bytes (`len(name) == L`). -/
def wordsOfByteLength (names : List GoString) (L : Int) : Nat :=
  ((corpusWords names).filter (fun w => (w.length : Int) = L)).length

/-- The adjacent pairs (previous, next) of a sequence of characters. -/
def adjacentPairs : List Rune → List (Rune × Rune)
  | [] => []
  | [_] => []
  | a :: b :: rest => (a, b) :: adjacentPairs (b :: rest)

/-- The number of positions, over all words of the corpus, at which the character
`next` immediately follows the character `prev`. -/
def adjacentCount (names : List GoString) (prev next : Rune) : Nat :=
  ((corpusWords names).flatMap (fun w => adjacentPairs (runes w))).count (prev, next)

/-- The number of corpus words whose first character is `x`. -/
def firstCharCount (names : List GoString) (x : Rune) : Nat :=
  ((corpusWords names).filter (fun w => (runes w).head? = some x)).length

/-- A source of draws that always delivers index 0 and walks every bag in stored
order. -/
def firstDraws : Nat → Draw := fun _ => ⟨fun _ => 0, id⟩

/-- The model that `SeedData` stores for the empty corpus: only the (empty)
auxiliary map. -/
def emptyModel : chain := [(kTableLen, [])]

/-- The tokens a model learnt from ASCII words may hold under context key `k`:
integers under `"parts"`, positive integers under `"name_len"`, one-byte ASCII
strings under every other key. -/
def TokenOK (k : GoString) (t : Token) : Prop :=
  if k = kParts then ∃ n : Int, t = Token.int n
  else if k = kNameLen then ∃ n : Nat, 1 ≤ n ∧ t = Token.int n
  else ∃ b, b < 128 ∧ t = Token.str [b]

/-- Invariant of the counting phase: no bag is empty, every count is positive and
every token is of the kind its context key admits. -/
def RawOK (c : chain) : Prop :=
  ∀ k bag, (k, bag) ∈ c → bag ≠ [] ∧ ∀ tw ∈ bag, 1 ≤ tw.2 ∧ TokenOK k tw.1

/-- What generation needs of a frozen model: every bag (the auxiliary map apart)
has its total stored, the total is positive, and the tokens are well typed. -/
def chain.Ready (c : chain) : Prop :=
  ∀ k bag, k ≠ kTableLen → mapGet c k = some bag →
    chain.tableLen c k = weightSum bag ∧ 0 < weightSum bag ∧ ∀ tw ∈ bag, TokenOK k tw.1

/-- A generated word with its drawn target: the word has exactly `target` bytes,
all of them ASCII. -/
def ExactWord (tw : Int × GoString) : Prop :=
  (tw.2.length : Int) = tw.1 ∧ ∀ x ∈ tw.2, x < 128

/-- A source of valid draws: the second draw (the target length) takes the last
index, every other draw the first; all bags are walked in stored order. -/
def overshootDraws : Nat → Draw :=
  fun i => if i = 1 then ⟨fun n => n - 1, id⟩ else ⟨fun _ => 0, id⟩

/-- A source of valid draws that always delivers index 0 and walks every bag in
reverse stored order. -/
def reversedDraws : Nat → Draw := fun _ => ⟨fun _ => 0, List.reverse⟩

/-- A source of valid draws: the fourth draw (the first successor) takes the last
index, every other draw the first; all bags are walked in stored order. -/
def placeholderDraws : Nat → Draw :=
  fun i => if i = 3 then ⟨fun n => n - 1, id⟩ else ⟨fun _ => 0, id⟩

/-- The chain that `SeedData` builds from the corpus `Abc`, `Ac`: the character
`c` is only ever a final letter, so it has no bag. -/
def finalLetterChain : chain :=
  [(kParts, [(Token.int 1, 2)]), (kNameLen, [(Token.int 3, 1), (Token.int 2, 1)]),
   (kInitial, [(Token.str [65], 2)]),
   ([65], [(Token.str [98], 1), (Token.str [99], 1)]),
   ([98], [(Token.str [99], 1)]),
   (kTableLen, [(Token.str kParts, 2), (Token.str kNameLen, 2), (Token.str kInitial, 2),
     (Token.str [65], 2), (Token.str [98], 1)])]

/-- A history of `SeedData` calls on one generator, each call given by its label
and its corpus; the history is cut short by the first call that panics. -/
def seedAll (g : generator) : List (GoString × List GoString) → Run generator
  | [] => Run.done g
  | call :: rest =>
    match g.SeedData call.1 call.2 with
    | Run.done g1 => seedAll g1 rest
    | Run.panic => Run.panic
    | Run.noFuel => Run.noFuel

/-- The name begins with a byte matched by `\s`. -/
def startsWithSpace (v : GoString) : Bool :=
  match v.head? with
  | some b => isSpace b
  | none => false

/-- The name ends with a byte matched by `\s`. -/
def endsWithSpace (v : GoString) : Bool :=
  match v.getLast? with
  | some b => isSpace b
  | none => false

/-- Well-formedness of the association lists that stand for Go maps: the keys of
the chain are pairwise different, and so are the tokens of every bag. -/
def MapOK (c : chain) : Prop :=
  (mapKeys c).Nodup ∧ ∀ k bag, (k, bag) ∈ c → (mapKeys bag).Nodup

/-- Every token of every bag of `c` was counted by one of the increments `evs`. -/
def EntriesFrom (evs : List (GoString × Token)) (c : chain) : Prop :=
  ∀ k bag, (k, bag) ∈ c → ∀ tw ∈ bag, (k, tw.1) ∈ evs

/-- The largest number of words in a name of the corpus. -/
def maxWordCount (names : List GoString) : Nat :=
  (names.map (fun v => (splitSpace v).length)).foldr max 0

/-- The length in bytes of the longest word of the corpus. -/
def maxWordLength (names : List GoString) : Nat :=
  ((corpusWords names).map List.length).foldr max 0

/-- The length in characters of the longest word of the corpus. -/
def maxWordChars (names : List GoString) : Nat :=
  ((corpusWords names).map lengthInChars).foldr max 0

/-- A source of valid draws: the third and the fifth draw take the last index,
every other draw the first; all bags are walked in stored order. -/
def longWordDraws : Nat → Draw :=
  fun i => if i = 2 ∨ i = 4 then ⟨fun n => n - 1, id⟩ else ⟨fun _ => 0, id⟩

/-- The pair of characters `p` occurs as an adjacent pair in some word of the corpus. -/
def pairInCorpus (names : List GoString) (p : Rune × Rune) : Prop :=
  ∃ w ∈ corpusWords names, p ∈ adjacentPairs (runes w)

/-- The character `x` is the first character of some word of the corpus. -/
def startsCorpusWord (names : List GoString) (x : Rune) : Prop :=
  ∃ w ∈ corpusWords names, (runes w).head? = some x

/-- Markov soundness of a generated word: it starts with the first character of
some corpus word, and every adjacent pair of its characters occurs in some corpus
word or has the placeholder `-` as its second character. -/
def MarkovSound (names : List GoString) (word : GoString) : Prop :=
  (∃ x, (runes word).head? = some x ∧ startsCorpusWord names x) ∧
  ∀ p ∈ adjacentPairs (runes word), pairInCorpus names p ∨ p.2 = 45

/-- A source of draws that differs from `firstDraws`: it delivers index 1 for the
total 1000 and walks bags of more than five entries in reverse order. -/
def otherDraws : Nat → Draw :=
  fun _ => ⟨fun n => if n = 1000 then 1 else 0, fun b => if 5 < b.length then b.reverse else b⟩

/-! ## Verified properties -/

/-- The weight `scaled c` is the integer part of the tenth root of `c ^ 13`. -/
theorem scaled_eq_iff (c w : Nat) : scaled c = w ↔ w ^ 10 ≤ c ^ 13 ∧ c ^ 13 < (w + 1) ^ 10 := by
  unfold scaled
  rw [Nat.findGreatest_eq_iff]
  constructor
  · rintro ⟨hle, hP, hnot⟩
    refine ⟨?_, ?_⟩
    · by_cases hw : w = 0
      · subst hw; simp
      · exact hP hw
    · by_contra hcon
      push_neg at hcon
      have hbig : w + 1 ≤ c ^ 2 := by
        by_contra hlt
        push_neg at hlt
        have h1 : (c ^ 2) ^ 10 < (w + 1) ^ 10 := Nat.pow_lt_pow_left hlt (by norm_num)
        have h2 : c ^ 13 ≤ (c ^ 2) ^ 10 := by
          rw [← pow_mul]
          rcases Nat.eq_zero_or_pos c with h0 | hpos
          · subst h0; simp
          · exact Nat.pow_le_pow_right hpos (by norm_num)
        omega
      exact hnot (Nat.lt_succ_self w) hbig hcon
  · rintro ⟨h1, h2⟩
    refine ⟨?_, fun _ => h1, ?_⟩
    · by_contra hlt
      push_neg at hlt
      have h3 : (c ^ 2) ^ 10 < w ^ 10 := Nat.pow_lt_pow_left hlt (by norm_num)
      have h4 : c ^ 13 ≤ (c ^ 2) ^ 10 := by
        rw [← pow_mul]
        rcases Nat.eq_zero_or_pos c with h0 | hpos
        · subst h0; simp
        · exact Nat.pow_le_pow_right hpos (by norm_num)
      omega
    · intro n hn _ hPn
      have h5 : (w + 1) ^ 10 ≤ n ^ 10 := Nat.pow_le_pow_left hn 10
      omega

/-- C4 (as amended): the scaling transform applied by `scale` maps the raw counts
1, 2, 3, 10, 100 to the weights 1, 2, 4, 19, 398. -/
theorem scaled_table :
    scaled 1 = 1 ∧ scaled 2 = 2 ∧ scaled 3 = 4 ∧ scaled 10 = 19 ∧ scaled 100 = 398 := by
  refine ⟨?_, ?_, ?_, ?_, ?_⟩ <;> rw [scaled_eq_iff] <;> norm_num

/-- C4, counterexample: the raw count 100 is not mapped to 199 (its weight is
`floor(100^1.3) = 398`). -/
theorem scaled_hundred : ¬ (scaled 100 = 199) := by
  rw [scaled_eq_iff]; norm_num

/-- A positive count never rescales to zero. -/
theorem scaled_pos (c : Nat) (h : 0 < c) : 0 < scaled c := by
  by_contra h0
  have h1 : scaled c = 0 := by omega
  rw [scaled_eq_iff] at h1
  have : 1 ≤ c ^ 13 := Nat.one_le_pow _ _ h
  simp at h1
  omega

/-- The weight `scaled c` is the floor of the real power `c ^ 1.3`. -/
theorem scaled_floor_rpow (c : Nat) : scaled c = ⌊(c : ℝ) ^ ((13 : ℝ) / 10)⌋₊ := by
  rw [scaled_eq_iff]
  have hc : (0 : ℝ) ≤ (c : ℝ) := Nat.cast_nonneg c
  have hx : (0 : ℝ) ≤ (c : ℝ) ^ ((13 : ℝ) / 10) := Real.rpow_nonneg hc _
  have key : ((c : ℝ) ^ ((13 : ℝ) / 10)) ^ 10 = (c : ℝ) ^ 13 := by
    rw [← Real.rpow_natCast, ← Real.rpow_mul hc]
    norm_num
    exact_mod_cast Real.rpow_natCast (c : ℝ) 13
  constructor
  · have h1 : ((⌊(c : ℝ) ^ ((13 : ℝ) / 10)⌋₊ : ℕ) : ℝ) ≤ (c : ℝ) ^ ((13 : ℝ) / 10) := Nat.floor_le hx
    have h2 : ((⌊(c : ℝ) ^ ((13 : ℝ) / 10)⌋₊ : ℕ) : ℝ) ^ 10 ≤ ((c : ℝ) ^ ((13 : ℝ) / 10)) ^ 10 :=
      pow_le_pow_left₀ (Nat.cast_nonneg _) h1 10
    rw [key] at h2
    exact_mod_cast h2
  · have h1 : (c : ℝ) ^ ((13 : ℝ) / 10) < ((⌊(c : ℝ) ^ ((13 : ℝ) / 10)⌋₊ : ℕ) : ℝ) + 1 := Nat.lt_floor_add_one _
    have h2 : ((c : ℝ) ^ ((13 : ℝ) / 10)) ^ 10 < (((⌊(c : ℝ) ^ ((13 : ℝ) / 10)⌋₊ : ℕ) : ℝ) + 1) ^ 10 :=
      pow_lt_pow_left₀ h1 hx (by norm_num)
    rw [key] at h2
    exact_mod_cast h2

theorem weightSum_nil : weightSum [] = 0 := rfl

theorem weightSum_cons (e : Token × Nat) (l : Bag) : weightSum (e :: l) = e.2 + weightSum l := by
  simp [weightSum]

theorem weightSum_append (l1 l2 : Bag) : weightSum (l1 ++ l2) = weightSum l1 + weightSum l2 := by
  simp [weightSum]

theorem weightSum_perm {l1 l2 : Bag} (h : l1.Perm l2) : weightSum l1 = weightSum l2 := by
  unfold weightSum
  exact (h.map Prod.snd).sum_eq

/-- The walk skips a block of entries whose cumulative weight does not exceed the index. -/
theorem walk_append (idx : Nat) : ∀ (pre rest : Bag) (t : Nat), t + weightSum pre ≤ idx →
    walk idx (pre ++ rest) t = walk idx rest (t + weightSum pre) := by
  intro pre
  induction pre with
  | nil => intro rest t _; simp [weightSum_nil]
  | cons e pre ih =>
    intro rest t h
    obtain ⟨tok, w⟩ := e
    rw [weightSum_cons] at h
    have hn : ¬ idx < t + w := by simp at h; omega
    have h1 : walk idx ((tok, w) :: pre ++ rest) t = walk idx (pre ++ rest) (t + w) := by
      simp [walk, hn]
    rw [h1, ih rest (t + w) (by simp at h; omega), weightSum_cons]
    congr 1
    simp
    omega

/-- The walk stops at the first entry whose cumulative weight exceeds the index. -/
theorem walk_split (idx : Nat) : ∀ (l : Bag) (t : Nat), t ≤ idx → idx < t + weightSum l →
    ∃ pre tok w post, l = pre ++ (tok, w) :: post ∧ walk idx l t = tok ∧
      t + weightSum pre ≤ idx ∧ idx < t + weightSum pre + w := by
  intro l
  induction l with
  | nil => intro t h1 h2; simp [weightSum_nil] at h2; omega
  | cons e l ih =>
    intro t h1 h2
    obtain ⟨tok, w⟩ := e
    rw [weightSum_cons] at h2
    by_cases hlt : idx < t + w
    · exact ⟨[], tok, w, l, rfl, by simp [walk, hlt], by simpa [weightSum_nil] using h1,
        by simpa [weightSum_nil] using hlt⟩
    · obtain ⟨pre, tok1, w1, post, hl, hw, ha, hb⟩ := ih (t + w) (by omega) (by simp at h2; omega)
      refine ⟨(tok, w) :: pre, tok1, w1, post, by simp [hl], by simp [walk, hlt, hw], ?_, ?_⟩
      · rw [weightSum_cons]; simp; omega
      · rw [weightSum_cons]; simp; omega

/-- In a map (pairwise different keys) an entry sits at one place only. -/
theorem split_unique {T : Token} : ∀ (pre pre1 : Bag) (w w1 : Nat) (post post1 : Bag),
    (mapKeys (pre ++ (T, w) :: post)).Nodup → pre ++ (T, w) :: post = pre1 ++ (T, w1) :: post1 →
    pre = pre1 ∧ w = w1 := by
  intro pre
  induction pre with
  | nil =>
    intro pre1 w w1 post post1 hnd heq
    cases pre1 with
    | nil => simp at heq; exact ⟨rfl, heq.1⟩
    | cons e pre1 =>
      exfalso
      simp only [List.nil_append, List.cons_append, List.cons.injEq] at heq
      obtain ⟨he, hpost⟩ := heq
      simp only [mapKeys, List.nil_append, List.map_cons, List.nodup_cons] at hnd
      apply hnd.1
      rw [hpost]
      simp
  | cons e pre ih =>
    intro pre1 w w1 post post1 hnd heq
    cases pre1 with
    | nil =>
      exfalso
      simp only [List.nil_append, List.cons_append, List.cons.injEq] at heq
      obtain ⟨he, hpost⟩ := heq
      simp only [mapKeys, List.cons_append, List.map_cons, List.nodup_cons] at hnd
      apply hnd.1
      rw [he]
      simp
    | cons e1 pre1 =>
      simp only [List.cons_append, List.cons.injEq] at heq
      obtain ⟨he, hrest⟩ := heq
      simp only [mapKeys, List.cons_append, List.map_cons, List.nodup_cons] at hnd
      obtain ⟨hp, hw⟩ := ih pre1 w w1 post post1 hnd.2 hrest
      exact ⟨by rw [he, hp], hw⟩

/-- With pairwise different keys, the indices on which the walk returns `T` are
exactly the block of `T`. -/
theorem walk_eq_iff (pre post : Bag) (T : Token) (w idx : Nat)
    (hnd : (mapKeys (pre ++ (T, w) :: post)).Nodup)
    (hidx : idx < weightSum (pre ++ (T, w) :: post)) :
    walk idx (pre ++ (T, w) :: post) 0 = T ↔ weightSum pre ≤ idx ∧ idx < weightSum pre + w := by
  constructor
  · intro h
    obtain ⟨pre1, tok1, w1, post1, hl, hw, ha, hb⟩ :=
      walk_split idx (pre ++ (T, w) :: post) 0 (Nat.zero_le _) (by simpa using hidx)
    rw [h] at hw
    subst hw
    obtain ⟨hp, hww⟩ := split_unique pre pre1 w w1 post post1 hnd hl
    subst hp; subst hww
    constructor <;> omega
  · rintro ⟨h1, h2⟩
    rw [walk_append idx pre _ 0 (by simpa using h1)]
    simp [walk]
    intro h3
    omega

theorem card_block (a w n : Nat) (p : Nat → Prop) [DecidablePred p] (h : a + w ≤ n)
    (hp : ∀ i, i < n → (p i ↔ a ≤ i ∧ i < a + w)) :
    ((Finset.range n).filter p).card = w := by
  have : (Finset.range n).filter p = Finset.Ico a (a + w) := by
    ext i
    simp only [Finset.mem_filter, Finset.mem_range, Finset.mem_Ico]
    constructor
    · rintro ⟨h1, h2⟩; exact (hp i h1).1 h2
    · rintro ⟨h1, h2⟩; exact ⟨by omega, (hp i (by omega)).2 ⟨h1, h2⟩⟩
  rw [this]
  simp

theorem selectLink_eq_walk (c : chain) (key : GoString) (d : Draw) (bag : Bag)
    (h : mapGet c key = some bag) :
    chain.selectLink c key d = walk (d.idx (chain.tableLen c key)) (d.order bag) 0 := by
  simp [chain.selectLink, h]

/-- C2: the weighted draw of `selectLink`.  For a bag stored under `key` whose
stored total `c["table_len"][key]` equals the sum of its weights, and any order
in which `range` walks the bag: (1) a drawn index below the total makes
`selectLink` return the first token in walk order whose cumulative weight exceeds
the index; (2) every token of the bag is returned for exactly as many of the
`total` index values as its weight; (3) every token of positive weight is
returned for at least one index value. -/
theorem selectLink_weighted_draw (c : chain) (key : GoString) (bag : Bag) (d : Draw)
    (hbag : mapGet c key = some bag) (hkeys : (mapKeys bag).Nodup)
    (horder : (d.order bag).Perm bag) (htotal : chain.tableLen c key = weightSum bag) :
    (d.idx (chain.tableLen c key) < chain.tableLen c key →
      ∃ pre tok w post, d.order bag = pre ++ (tok, w) :: post ∧
        chain.selectLink c key d = tok ∧
        weightSum pre ≤ d.idx (chain.tableLen c key) ∧
        d.idx (chain.tableLen c key) < weightSum pre + w) ∧
    (∀ T w, (T, w) ∈ bag →
      ((Finset.range (chain.tableLen c key)).filter
        (fun idx => chain.selectLink c key ⟨fun _ => idx, d.order⟩ = T)).card = w) ∧
    (∀ T w, (T, w) ∈ bag → 0 < w →
      ∃ idx, idx < chain.tableLen c key ∧ chain.selectLink c key ⟨fun _ => idx, d.order⟩ = T) := by
  have hsum : weightSum (d.order bag) = weightSum bag := weightSum_perm horder
  have hnd : (mapKeys (d.order bag)).Nodup := by
    unfold mapKeys
    exact ((horder.map Prod.fst).nodup_iff).2 hkeys
  refine ⟨?_, ?_, ?_⟩
  · intro hlt
    rw [selectLink_eq_walk c key d bag hbag]
    obtain ⟨pre, tok, w, post, h1, h2, h3, h4⟩ :=
      walk_split (d.idx (chain.tableLen c key)) (d.order bag) 0 (Nat.zero_le _)
        (by rw [hsum, ← htotal]; simpa using hlt)
    exact ⟨pre, tok, w, post, h1, h2, by simpa using h3, by simpa using h4⟩
  · intro T w hmem
    have hmem1 : (T, w) ∈ d.order bag := horder.mem_iff.2 hmem
    obtain ⟨pre, post, hsplit⟩ := List.append_of_mem hmem1
    apply card_block (weightSum pre) w
    · rw [htotal, ← hsum, hsplit, weightSum_append, weightSum_cons]
      simp
    · intro i hi
      rw [selectLink_eq_walk c key _ bag hbag]
      show walk i (d.order bag) 0 = T ↔ _
      rw [hsplit]
      apply walk_eq_iff
      · rw [← hsplit]; exact hnd
      · rw [← hsplit, hsum, ← htotal]; exact hi
  · intro T w hmem hw
    have hmem1 : (T, w) ∈ d.order bag := horder.mem_iff.2 hmem
    obtain ⟨pre, post, hsplit⟩ := List.append_of_mem hmem1
    refine ⟨weightSum pre, ?_, ?_⟩
    · rw [htotal, ← hsum, hsplit, weightSum_append, weightSum_cons]
      simp; omega
    · rw [selectLink_eq_walk c key _ bag hbag]
      show walk (weightSum pre) (d.order bag) 0 = T
      rw [hsplit, walk_append _ pre _ 0 (by simp)]
      simp [walk, hw]

/-- Witness for C2: the `"initial"` bag of the sample chain, walked in stored
order with drawn index 2. -/
theorem selectLink_weighted_draw_witness :
    (2 < chain.tableLen sampleChain kInitial →
      ∃ pre tok w post,
        [(Token.str [65], 2), (Token.str [66], 1)] = pre ++ (tok, w) :: post ∧
        chain.selectLink sampleChain kInitial ⟨fun _ => 2, id⟩ = tok ∧
        weightSum pre ≤ 2 ∧ 2 < weightSum pre + w) ∧
    (∀ T w, (T, w) ∈ [(Token.str [65], 2), (Token.str [66], 1)] →
      ((Finset.range (chain.tableLen sampleChain kInitial)).filter
        (fun idx => chain.selectLink sampleChain kInitial ⟨fun _ => idx, id⟩ = T)).card = w) ∧
    (∀ T w, (T, w) ∈ [(Token.str [65], 2), (Token.str [66], 1)] → 0 < w →
      ∃ idx, idx < chain.tableLen sampleChain kInitial ∧
        chain.selectLink sampleChain kInitial ⟨fun _ => idx, id⟩ = T) :=
  selectLink_weighted_draw sampleChain kInitial [(Token.str [65], 2), (Token.str [66], 1)]
    ⟨fun _ => 2, id⟩ (by decide) (by decide) (List.Perm.refl _) (by decide)

theorem mapGet_mapSet {κ ν : Type} [DecidableEq κ] (m : List (κ × ν)) (k k1 : κ) (v : ν) :
    mapGet (mapSet m k v) k1 = if k = k1 then some v else mapGet m k1 := by
  induction m with
  | nil => simp [mapSet, mapGet]
  | cons e m ih =>
    obtain ⟨k0, v0⟩ := e
    by_cases h0 : k0 = k
    · subst h0
      by_cases h1 : k0 = k1 <;> simp [mapSet, mapGet, h1]
    · by_cases h1 : k0 = k1
      · subst h1
        have : ¬ k = k0 := fun h => h0 h.symm
        simp [mapSet, mapGet, h0, this]
      · simp [mapSet, mapGet, h0, h1, ih]

theorem mapGet_mapSet_self {κ ν : Type} [DecidableEq κ] (m : List (κ × ν)) (k : κ) (v : ν) :
    mapGet (mapSet m k v) k = some v := by
  rw [mapGet_mapSet]; simp

theorem mapGet_mapSet_ne {κ ν : Type} [DecidableEq κ] (m : List (κ × ν)) (k k1 : κ) (v : ν)
    (h : k ≠ k1) : mapGet (mapSet m k v) k1 = mapGet m k1 := by
  rw [mapGet_mapSet]; simp [h]

theorem mapGet_map_val {κ ν μ : Type} [DecidableEq κ] (f : ν → μ) (m : List (κ × ν)) (k : κ) :
    mapGet (m.map (fun kv => (kv.1, f kv.2))) k = (mapGet m k).map f := by
  induction m with
  | nil => simp [mapGet]
  | cons e m ih =>
    obtain ⟨k0, v0⟩ := e
    by_cases h : k0 = k <;> simp [mapGet, h, ih]

theorem mapGet_map_key {κ ι ν μ : Type} [DecidableEq κ] [DecidableEq ι] (j : κ → ι)
    (hj : Function.Injective j) (f : κ → ν → μ) (m : List (κ × ν)) (k : κ) :
    mapGet (m.map (fun kv => (j kv.1, f kv.1 kv.2))) (j k) = (mapGet m k).map (f k) := by
  induction m with
  | nil => simp [mapGet]
  | cons e m ih =>
    obtain ⟨k0, v0⟩ := e
    by_cases h : k0 = k
    · subst h; simp [mapGet]
    · have : ¬ j k0 = j k := fun hh => h (hj hh)
      simp [mapGet, h, this, ih]

theorem mapGet_isSome_iff {κ ν : Type} [DecidableEq κ] (m : List (κ × ν)) (k : κ) :
    (mapGet m k).isSome ↔ k ∈ mapKeys m := by
  induction m with
  | nil => simp [mapGet, mapKeys]
  | cons e m ih =>
    obtain ⟨k0, v0⟩ := e
    by_cases h : k0 = k
    · subst h; simp [mapGet, mapKeys]
    · have h1 : ¬ k = k0 := fun hh => h hh.symm
      simp only [mapGet, h, if_false, ih, mapKeys, List.map_cons, List.mem_cons, h1, false_or]

theorem mapGet_mem {κ ν : Type} [DecidableEq κ] (m : List (κ × ν)) (k : κ) (v : ν)
    (h : mapGet m k = some v) : (k, v) ∈ m := by
  induction m with
  | nil => simp [mapGet] at h
  | cons e m ih =>
    obtain ⟨k0, v0⟩ := e
    by_cases h0 : k0 = k
    · subst h0; simp [mapGet] at h; simp [h]
    · simp [mapGet, h0] at h; exact List.mem_cons_of_mem _ (ih h)

theorem mapKeys_mapSet {κ ν : Type} [DecidableEq κ] (m : List (κ × ν)) (k : κ) (v : ν) :
    mapKeys (mapSet m k v) = if k ∈ mapKeys m then mapKeys m else mapKeys m ++ [k] := by
  induction m with
  | nil => simp [mapSet, mapKeys]
  | cons e m ih =>
    obtain ⟨k0, v0⟩ := e
    by_cases h0 : k0 = k
    · subst h0; simp [mapSet, mapKeys]
    · have h1 : ¬ k = k0 := fun hh => h0 hh.symm
      simp only [mapKeys] at ih
      simp only [mapSet, h0, if_false, mapKeys, List.map_cons, List.mem_cons, h1, false_or, ih]
      split <;> simp

theorem mapKeys_mapSet_nodup {κ ν : Type} [DecidableEq κ] (m : List (κ × ν)) (k : κ) (v : ν)
    (h : (mapKeys m).Nodup) : (mapKeys (mapSet m k v)).Nodup := by
  rw [mapKeys_mapSet]
  split
  · exact h
  · rename_i hk
    rw [List.nodup_append]
    refine ⟨h, List.nodup_singleton k, ?_⟩
    intro a ha hb
    simp at hb
    subst hb
    exact hk ha

theorem tokenStr_injective : Function.Injective Token.str := by
  intro a b h
  cases h
  rfl

/-- Lookups in a rescaled chain, away from the auxiliary key. -/
theorem scale_get (c : chain) (k : GoString) (hk : k ≠ kTableLen) :
    mapGet (chain.scale c) k = (mapGet c k).map scaleBag := by
  unfold chain.scale
  simp only
  rw [mapGet_mapSet_ne _ _ _ _ (fun h => hk h.symm)]
  exact mapGet_map_val scaleBag c k

/-- The auxiliary map of a rescaled chain. -/
theorem scale_get_tableLen (c : chain) :
    mapGet (chain.scale c) kTableLen
      = some (c.map (fun kv => (Token.str kv.1, weightSum (scaleBag kv.2)))) := by
  unfold chain.scale
  simp only
  rw [mapGet_mapSet_self]

theorem tableLen_get (c : chain) (k : GoString) :
    mapGet (c.map (fun kv => (Token.str kv.1, weightSum (scaleBag kv.2)))) (Token.str k)
      = (mapGet c k).map (fun v => weightSum (scaleBag v)) :=
  mapGet_map_key Token.str tokenStr_injective (fun _ v => weightSum (scaleBag v)) c k

theorem tableLen_keys (c : chain) (tok : Token)
    (h : (mapGet (c.map (fun kv => (Token.str kv.1, weightSum (scaleBag kv.2)))) tok).isSome) :
    ∃ k, tok = Token.str k ∧ (mapGet c k).isSome := by
  rw [mapGet_isSome_iff] at h
  simp only [mapKeys, List.map_map, List.mem_map, Function.comp] at h
  obtain ⟨kv, hkv, heq⟩ := h
  refine ⟨kv.1, heq.symm, ?_⟩
  rw [mapGet_isSome_iff]
  exact List.mem_map_of_mem Prod.fst hkv

theorem replay_nil (c : chain) : replay c [] = c := rfl

theorem replay_cons (c : chain) (e : GoString × Token) (evs : List (GoString × Token)) :
    replay c (e :: evs) = replay (chain.increment c e.1 e.2) evs := rfl

theorem replay_append (c : chain) (e1 e2 : List (GoString × Token)) :
    replay c (e1 ++ e2) = replay (replay c e1) e2 := by
  simp [replay, List.foldl_append]

theorem charLoop_eq_replay : ∀ (rs : List Rune) (c : chain) (lastChar : Rune),
    charLoop c lastChar rs = replay c (pairEvents lastChar rs) := by
  intro rs
  induction rs with
  | nil => intro c lastChar; rfl
  | cons r rs ih => intro c lastChar; simp only [charLoop, pairEvents, replay_cons, ih]

/-- The word loop returns exactly when no word is empty, and then it has made the
increments listed by `wordEvents`. -/
theorem wordsLoop_eq_replay : ∀ (ws : List GoString) (c : chain), (∀ w ∈ ws, w ≠ []) →
    wordsLoop c ws = Run.done (replay c (ws.flatMap wordEvents)) := by
  intro ws
  induction ws with
  | nil => intro c _; rfl
  | cons w ws ih =>
    intro c h
    cases w with
    | nil => exact absurd rfl (h [] (List.mem_cons_self _ _))
    | cons b0 tail =>
      simp only [wordsLoop, List.flatMap_cons, replay_append]
      rw [ih _ (fun w hw => h w (List.mem_cons_of_mem _ hw)), charLoop_eq_replay]
      rfl

theorem wordsLoop_done : ∀ (ws : List GoString) (c c1 : chain), wordsLoop c ws = Run.done c1 →
    (∀ w ∈ ws, w ≠ []) := by
  intro ws
  induction ws with
  | nil => intro c c1 _ w hw; simp at hw
  | cons w ws ih =>
    intro c c1 h
    cases w with
    | nil => simp [wordsLoop] at h
    | cons b0 tail =>
      simp only [wordsLoop] at h
      intro w hw
      rcases List.mem_cons.1 hw with h1 | h1
      · subst h1; simp
      · exact ih _ _ h w h1

theorem wordsLoop_ne_noFuel : ∀ (ws : List GoString) (c : chain), wordsLoop c ws ≠ Run.noFuel := by
  intro ws
  induction ws with
  | nil => intro c h; simp [wordsLoop] at h
  | cons w ws ih =>
    intro c
    cases w with
    | nil => simp [wordsLoop]
    | cons b0 tail => simp only [wordsLoop]; exact ih _

theorem learn_eq_replay : ∀ (names : List GoString) (c : chain),
    (∀ w ∈ corpusWords names, w ≠ []) →
    learn c names = Run.done (replay c (corpusEvents names)) := by
  intro names
  induction names with
  | nil => intro c _; rfl
  | cons v names ih =>
    intro c h
    have hv : ∀ w ∈ splitSpace v, w ≠ [] := fun w hw =>
      h w (by simp [corpusWords]; exact Or.inl hw)
    have hrest : ∀ w ∈ corpusWords names, w ≠ [] := fun w hw =>
      h w (by simp [corpusWords] at hw ⊢; exact Or.inr hw)
    simp only [learn, wordsLoop_eq_replay _ _ hv, ih _ hrest]
    simp [corpusEvents, nameEvents, replay_append, replay_cons]

theorem learn_done : ∀ (names : List GoString) (c c1 : chain), learn c names = Run.done c1 →
    (∀ w ∈ corpusWords names, w ≠ []) := by
  intro names
  induction names with
  | nil => intro c c1 _ w hw; simp [corpusWords] at hw
  | cons v names ih =>
    intro c c1 h w hw
    simp only [learn] at h
    split at h
    · rename_i c2 hc2
      simp only [corpusWords, List.flatMap_cons, List.mem_append] at hw
      rcases hw with h1 | h1
      · exact wordsLoop_done _ _ _ hc2 w h1
      · exact ih _ _ h w h1
    · simp at h
    · simp at h

theorem learn_ne_noFuel : ∀ (names : List GoString) (c : chain), learn c names ≠ Run.noFuel := by
  intro names
  induction names with
  | nil => intro c h; simp [learn] at h
  | cons v names ih =>
    intro c h
    simp only [learn] at h
    split at h
    · exact ih _ h
    · simp at h
    · rename_i h1; exact wordsLoop_ne_noFuel _ _ h1

/-- The method `SeedData` returns exactly when every word of the corpus is non-empty; the
stored model is the rescaled replay of the corpus increments. -/
theorem SeedData_eq (g : generator) (label : GoString) (names : List GoString)
    (h : ∀ w ∈ corpusWords names, w ≠ []) :
    g.SeedData label names
      = Run.done ⟨mapSet g.chains label (chain.scale (replay [] (corpusEvents names)))⟩ := by
  simp [generator.SeedData, learn_eq_replay names [] h]

theorem SeedData_done (g g1 : generator) (label : GoString) (names : List GoString)
    (h : g.SeedData label names = Run.done g1) :
    (∀ w ∈ corpusWords names, w ≠ []) ∧
    g1 = ⟨mapSet g.chains label (chain.scale (replay [] (corpusEvents names)))⟩ := by
  have hw : ∀ w ∈ corpusWords names, w ≠ [] := by
    unfold generator.SeedData at h
    split at h
    · rename_i c hc; exact learn_done _ _ _ hc
    · simp at h
    · simp at h
  refine ⟨hw, ?_⟩
  rw [SeedData_eq g label names hw] at h
  simp at h
  exact h.symm

theorem increment_eq (c : chain) (key : GoString) (tok : Token) :
    chain.increment c key tok
      = mapSet c key (mapSet ((mapGet c key).getD []) tok
          ((mapGet ((mapGet c key).getD []) tok).getD 0 + 1)) := by
  unfold chain.increment
  cases h : mapGet c key with
  | none => simp [mapGet]
  | some v => simp

theorem increment_get_ne (c : chain) (key k : GoString) (tok : Token) (h : key ≠ k) :
    mapGet (chain.increment c key tok) k = mapGet c k := by
  rw [increment_eq, mapGet_mapSet_ne _ _ _ _ h]

theorem increment_get_isSome (c : chain) (key k : GoString) (tok : Token) :
    (mapGet (chain.increment c key tok) k).isSome ↔ key = k ∨ (mapGet c k).isSome := by
  rw [increment_eq, mapGet_mapSet]
  by_cases h : key = k <;> simp [h]

theorem weight_increment (c : chain) (key k : GoString) (tok t : Token) :
    chain.weight (chain.increment c key tok) k t
      = if key = k ∧ tok = t then some ((chain.weight c k t).getD 0 + 1)
        else chain.weight c k t := by
  unfold chain.weight
  rw [increment_eq, mapGet_mapSet]
  by_cases hk : key = k
  · subst hk
    simp only [if_true, true_and, Option.some_bind, mapGet_mapSet]
    by_cases ht : tok = t
    · subst ht
      cases h : mapGet c key <;> simp [mapGet]
    · cases h : mapGet c key <;> simp [ht, mapGet]
  · simp [hk]

theorem weight_replay : ∀ (evs : List (GoString × Token)) (c : chain) (k : GoString) (t : Token),
    chain.weight (replay c evs) k t
      = if evs.count (k, t) = 0 then chain.weight c k t
        else some ((chain.weight c k t).getD 0 + evs.count (k, t)) := by
  intro evs
  induction evs with
  | nil => intro c k t; simp [replay_nil]
  | cons e evs ih =>
    intro c k t
    obtain ⟨key, tok⟩ := e
    rw [replay_cons, ih, weight_increment]
    by_cases he : key = k ∧ tok = t
    · obtain ⟨h1, h2⟩ := he
      subst h1; subst h2
      simp only [and_self, if_true, Option.getD_some, List.count_cons_self]
      by_cases h0 : List.count (key, tok) evs = 0
      · simp [h0]
      · simp [h0]; omega
    · have hne : (key, tok) ≠ (k, t) := by
        intro hh; apply he; simp at hh; exact hh
      simp only [he, if_false]
      rw [List.count_cons_of_ne (Ne.symm hne)]

/-- In a chain learnt from scratch, a token is present exactly when it was counted, and
its raw count is the number of its increments. -/
theorem weight_replay_nil (evs : List (GoString × Token)) (k : GoString) (t : Token) :
    chain.weight (replay [] evs) k t
      = if evs.count (k, t) = 0 then none else some (evs.count (k, t)) := by
  rw [weight_replay]
  simp [chain.weight, mapGet]

theorem weight_scale (c : chain) (k : GoString) (t : Token) (hk : k ≠ kTableLen) :
    chain.weight (chain.scale c) k t = (chain.weight c k t).map scaled := by
  unfold chain.weight
  rw [scale_get c k hk]
  cases h : mapGet c k with
  | none => simp
  | some v =>
    simp only [Option.map_some', Option.some_bind]
    exact mapGet_map_val scaled v t

theorem replay_get_isSome : ∀ (evs : List (GoString × Token)) (c : chain) (k : GoString),
    (mapGet (replay c evs) k).isSome ↔ (mapGet c k).isSome ∨ k ∈ evs.map Prod.fst := by
  intro evs
  induction evs with
  | nil => intro c k; simp [replay_nil]
  | cons e evs ih =>
    intro c k
    rw [replay_cons, ih, increment_get_isSome]
    simp only [List.map_cons, List.mem_cons]
    constructor
    · rintro ((h | h) | h)
      · exact Or.inr (Or.inl h.symm)
      · exact Or.inl h
      · exact Or.inr (Or.inr h)
    · rintro (h | h | h)
      · exact Or.inl (Or.inr h)
      · exact Or.inl (Or.inl h.symm)
      · exact Or.inr h

theorem encodeRune_length (r : Rune) : 1 ≤ (encodeRune r).length ∧ (encodeRune r).length ≤ 4 := by
  unfold encodeRune
  split
  · simp
  · split
    · simp
    · split
      · simp
      · split <;> simp


theorem contextKey_ne_tableLen (k : GoString) (h : IsContextKey k) : k ≠ kTableLen := by
  rcases h with h | h | h | ⟨r, h⟩
  · subst h; decide
  · subst h; decide
  · subst h; decide
  · intro hk
    have h1 := (encodeRune_length r).2
    rw [← h, hk] at h1
    revert h1
    decide

theorem pairEvents_keys : ∀ (rs : List Rune) (lastChar : Rune),
    ∀ e ∈ pairEvents lastChar rs, IsContextKey e.1 := by
  intro rs
  induction rs with
  | nil => intro _ e he; simp [pairEvents] at he
  | cons r rs ih =>
    intro lastChar e he
    simp only [pairEvents, List.mem_cons] at he
    rcases he with h | h
    · subst h; exact Or.inr (Or.inr (Or.inr ⟨lastChar, rfl⟩))
    · exact ih r e h

theorem wordEvents_keys (w : GoString) : ∀ e ∈ wordEvents w, IsContextKey e.1 := by
  intro e he
  cases w with
  | nil => simp [wordEvents] at he
  | cons b0 tail =>
    simp only [wordEvents, List.mem_cons] at he
    rcases he with h | h | h
    · subst h; exact Or.inr (Or.inl rfl)
    · subst h; exact Or.inr (Or.inr (Or.inl rfl))
    · exact pairEvents_keys _ _ e h

theorem corpusEvents_keys (names : List GoString) : ∀ e ∈ corpusEvents names, IsContextKey e.1 := by
  intro e he
  simp only [corpusEvents, List.mem_flatMap, nameEvents, List.mem_cons] at he
  obtain ⟨v, _, h | ⟨w, _, hw⟩⟩ := he
  · subst h; exact Or.inl rfl
  · exact wordEvents_keys w e hw

theorem learnt_keys (names : List GoString) (k : GoString)
    (h : (mapGet (replay [] (corpusEvents names)) k).isSome) : IsContextKey k := by
  rw [replay_get_isSome] at h
  rcases h with h | h
  · simp [mapGet] at h
  · simp only [List.mem_map] at h
    obtain ⟨e, he, hk⟩ := h
    rw [← hk]
    exact corpusEvents_keys names e he

/-- C3: total-weight invariant.  Whenever `SeedData` returns (the empty corpus
included), the stored model has the auxiliary map under `"table_len"`; for every
context key `k` that has a bag, the total stored for `k` is the sum of the
(scaled) weights in that bag; and the auxiliary map has an entry for exactly the
context keys that have a bag: every entry is keyed by a context key with a bag,
and every key with a bag has an entry. -/
theorem SeedData_total_weight (g g1 : generator) (label : GoString) (names : List GoString)
    (h : g.SeedData label names = Run.done g1) :
    ∃ c tl, mapGet g1.chains label = some c ∧ mapGet c kTableLen = some tl ∧
      (∀ k bag, k ≠ kTableLen → mapGet c k = some bag →
        mapGet tl (Token.str k) = some (weightSum bag) ∧ chain.tableLen c k = weightSum bag) ∧
      (∀ k, k ≠ kTableLen → ((mapGet tl (Token.str k)).isSome ↔ (mapGet c k).isSome)) ∧
      (∀ tok, (mapGet tl tok).isSome →
        ∃ k, tok = Token.str k ∧ IsContextKey k ∧ (mapGet c k).isSome) := by
  obtain ⟨_, hg1⟩ := SeedData_done g g1 label names h
  subst hg1
  refine ⟨chain.scale (replay [] (corpusEvents names)), _, mapGet_mapSet_self _ _ _,
    scale_get_tableLen _, ?_, ?_, ?_⟩
  · intro k bag hk hbag
    rw [scale_get _ k hk] at hbag
    have h1 : mapGet (List.map (fun kv => (Token.str kv.1, weightSum (scaleBag kv.2)))
        (replay [] (corpusEvents names))) (Token.str k) = some (weightSum bag) := by
      rw [tableLen_get]
      cases hc : mapGet (replay [] (corpusEvents names)) k with
      | none => rw [hc] at hbag; simp at hbag
      | some v => rw [hc] at hbag; simp at hbag; simp [hbag]
    refine ⟨h1, ?_⟩
    unfold chain.tableLen
    rw [scale_get_tableLen]
    simp only [Option.some_bind]
    rw [h1]
    rfl
  · intro k hk
    rw [tableLen_get, scale_get _ k hk]
    simp
  · intro tok htok
    obtain ⟨k, hk1, hk2⟩ := tableLen_keys _ tok htok
    have hck : IsContextKey k := learnt_keys names k hk2
    refine ⟨k, hk1, hck, ?_⟩
    rw [scale_get _ k (contextKey_ne_tableLen k hck)]
    simpa using hk2

/-- Witness for C3: the corpus `Aa`, `Ab`, `Ba` seeded under `test`. -/
theorem SeedData_total_weight_witness :
    ∃ c tl, mapGet (generator.mk [(goString "test", sampleChain)]).chains (goString "test") = some c ∧
      mapGet c kTableLen = some tl ∧
      (∀ k bag, k ≠ kTableLen → mapGet c k = some bag →
        mapGet tl (Token.str k) = some (weightSum bag) ∧ chain.tableLen c k = weightSum bag) ∧
      (∀ k, k ≠ kTableLen → ((mapGet tl (Token.str k)).isSome ↔ (mapGet c k).isSome)) ∧
      (∀ tok, (mapGet tl tok).isSome →
        ∃ k, tok = Token.str k ∧ IsContextKey k ∧ (mapGet c k).isSome) :=
  SeedData_total_weight New (generator.mk [(goString "test", sampleChain)]) (goString "test")
    [goString "Aa", goString "Ab", goString "Ba"] (by decide)

theorem count_eq_zero_of_key {evs : List (GoString × Token)} {k : GoString} {t : Token}
    (h : ∀ e ∈ evs, e.1 ≠ k) : evs.count (k, t) = 0 := by
  apply List.count_eq_zero_of_not_mem
  intro hmem
  exact h _ hmem rfl

theorem pairEvents_key_length : ∀ (rs : List Rune) (lastChar : Rune),
    ∀ e ∈ pairEvents lastChar rs, e.1.length ≤ 4 := by
  intro rs
  induction rs with
  | nil => intro _ e he; simp [pairEvents] at he
  | cons r rs ih =>
    intro lastChar e he
    simp only [pairEvents, List.mem_cons] at he
    rcases he with h | h
    · subst h; exact (encodeRune_length lastChar).2
    · exact ih r e h

theorem count_nameLen_wordEvents (w : GoString) (hw : w ≠ []) (L : Int) :
    (wordEvents w).count (kNameLen, Token.int L) = if (w.length : Int) = L then 1 else 0 := by
  cases w with
  | nil => exact absurd rfl hw
  | cons b0 tail =>
    have h1 : (pairEvents b0 (runes tail)).count (kNameLen, Token.int L) = 0 := by
      apply count_eq_zero_of_key
      intro e he hk
      have := pairEvents_key_length _ _ e he
      rw [hk] at this
      revert this
      decide
    have h2 : ((kInitial, Token.str (encodeRune b0)) : GoString × Token) ≠ (kNameLen, Token.int L) := by
      intro hh; cases hh
    simp only [wordEvents]
    rw [List.count_cons, List.count_cons_of_ne (Ne.symm h2), h1]
    by_cases hL : ((b0 :: tail).length : Int) = L
    · subst hL; simp
    · have : ¬ ((kNameLen, Token.int ((b0 :: tail).length : Int)) == (kNameLen, Token.int L)) = true := by
        simp
        intro hh
        apply hL
        exact_mod_cast hh
      simp only [this, hL, if_false]
      simp

theorem count_nameLen_words : ∀ (ws : List GoString), (∀ w ∈ ws, w ≠ []) → ∀ (L : Int),
    (ws.flatMap wordEvents).count (kNameLen, Token.int L)
      = (ws.filter (fun w => (w.length : Int) = L)).length := by
  intro ws
  induction ws with
  | nil => intro _ L; simp
  | cons w ws ih =>
    intro h L
    rw [List.flatMap_cons, List.count_append, ih (fun w hw => h w (List.mem_cons_of_mem _ hw)),
      count_nameLen_wordEvents w (h w (List.mem_cons_self _ _)), List.filter_cons]
    by_cases hL : (w.length : Int) = L
    · simp [hL]; omega
    · simp [hL]

theorem count_nameLen_corpus : ∀ (names : List GoString), (∀ w ∈ corpusWords names, w ≠ []) →
    ∀ (L : Int), (corpusEvents names).count (kNameLen, Token.int L) = wordsOfByteLength names L := by
  intro names
  induction names with
  | nil => intro _ L; simp [corpusEvents, wordsOfByteLength, corpusWords]
  | cons v names ih =>
    intro h L
    have hv : ∀ w ∈ splitSpace v, w ≠ [] := fun w hw =>
      h w (by simp [corpusWords]; exact Or.inl hw)
    have hrest : ∀ w ∈ corpusWords names, w ≠ [] := fun w hw =>
      h w (by simp [corpusWords] at hw ⊢; exact Or.inr hw)
    have h2 : ((kParts, Token.int ((splitSpace v).length : Int)) : GoString × Token)
        ≠ (kNameLen, Token.int L) := by
      intro hh; cases hh
    have ih1 := ih hrest L
    simp only [corpusEvents, wordsOfByteLength, corpusWords] at ih1 ⊢
    rw [List.flatMap_cons, List.count_append, ih1, List.flatMap_cons, List.filter_append,
      List.length_append]
    simp only [nameEvents]
    rw [List.count_cons_of_ne (Ne.symm h2), count_nameLen_words _ hv]

/-- C10 (as amended): the `"name_len"` bag counts words by their length in bytes.
For every corpus with non-empty words `SeedData` returns, and the stored model
gives the integer token `L` the weight `scaled n`, where `n` is the number of
corpus words with `len(word) = L`, and has no entry for `L` when there is no
such word. -/
theorem SeedData_name_len_bytes (g : generator) (label : GoString) (names : List GoString)
    (h : ∀ w ∈ corpusWords names, w ≠ []) :
    ∃ c, g.SeedData label names = Run.done ⟨mapSet g.chains label c⟩ ∧
      mapGet (mapSet g.chains label c) label = some c ∧
      ∀ L : Int, chain.weight c kNameLen (Token.int L)
        = if wordsOfByteLength names L = 0 then none
          else some (scaled (wordsOfByteLength names L)) := by
  refine ⟨_, SeedData_eq g label names h, mapGet_mapSet_self _ _ _, ?_⟩
  intro L
  rw [weight_scale _ _ _ (by decide), weight_replay_nil, count_nameLen_corpus names h L]
  split <;> simp

/-- Witness for C10 (as amended): the corpus `Aa`, `Ab`, `Ba`. -/
theorem SeedData_name_len_bytes_witness :
    ∃ c, New.SeedData (goString "test") [goString "Aa", goString "Ab", goString "Ba"]
        = Run.done ⟨mapSet New.chains (goString "test") c⟩ ∧
      mapGet (mapSet New.chains (goString "test") c) (goString "test") = some c ∧
      ∀ L : Int, chain.weight c kNameLen (Token.int L)
        = if wordsOfByteLength [goString "Aa", goString "Ab", goString "Ba"] L = 0 then none
          else some (scaled (wordsOfByteLength [goString "Aa", goString "Ab", goString "Ba"] L)) :=
  SeedData_name_len_bytes New (goString "test") [goString "Aa", goString "Ab", goString "Ba"]
    (by decide)

/-- C10, counterexample: seeded with the single word `é` (bytes C3 A9, one
character), the `"name_len"` bag has an entry for 2 although no word has two
characters, and no entry for 1 although one word has one character. -/
theorem SeedData_name_len_chars_fails :
    ∃ c, New.SeedData (goString "t") [goString "é"] = Run.done ⟨[(goString "t", c)]⟩ ∧
      wordsOfCharLength [goString "é"] 2 = 0 ∧ chain.weight c kNameLen (Token.int 2) = some 1 ∧
      wordsOfCharLength [goString "é"] 1 = 1 ∧ chain.weight c kNameLen (Token.int 1) = none :=
  ⟨_, rfl, by decide, by decide, by decide, by decide⟩

/-- C1 (code at the failing input): seeded with the single word `éa` (bytes
C3 A9 61; characters U+00E9, U+0061), the model has no entry for `a` in the bag
keyed by `é` although `a` follows `é` once, and it gives weight 1 to U+FFFD in
the bag keyed by U+00C3 although neither character occurs in the corpus. -/
theorem SeedData_pairs_non_ascii :
    ∃ c, New.SeedData (goString "t") [goString "éa"] = Run.done ⟨[(goString "t", c)]⟩ ∧
      adjacentCount [goString "éa"] 0xE9 0x61 = 1 ∧
      chain.weight c (encodeRune 0xE9) (Token.str (encodeRune 0x61)) = none ∧
      adjacentCount [goString "éa"] 0xC3 0xFFFD = 0 ∧
      chain.weight c (encodeRune 0xC3) (Token.str (encodeRune 0xFFFD)) = some 1 :=
  ⟨_, rfl, by decide, by decide, by decide, by decide⟩

/-- C9 (code at the failing input): seeded with the single word `éa`, the
`"initial"` bag has no entry for the first character `é` of that word, and it
has an entry of weight 1 for U+00C3, which is the first character of no word. -/
theorem SeedData_initial_non_ascii :
    ∃ c, New.SeedData (goString "t") [goString "éa"] = Run.done ⟨[(goString "t", c)]⟩ ∧
      firstCharCount [goString "éa"] 0xE9 = 1 ∧
      chain.weight c kInitial (Token.str (encodeRune 0xE9)) = none ∧
      firstCharCount [goString "éa"] 0xC3 = 0 ∧
      chain.weight c kInitial (Token.str (encodeRune 0xC3)) = some 1 :=
  ⟨_, rfl, by decide, by decide, by decide, by decide⟩

/-- C6 (code at the failing input): after `SeedData("x", [])` the label `x` is
registered, yet `GenerateName("x")` does not return: the draw on `"parts"` yields
the placeholder string and its assertion to `int` panics. -/
theorem GenerateName_seeded_empty_panics :
    New.SeedData (goString "x") [] = Run.done ⟨[(goString "x", emptyModel)]⟩ ∧
      (mapGet (generator.mk [(goString "x", emptyModel)]).chains (goString "x")).isSome = true ∧
      generator.GenerateName ⟨[(goString "x", emptyModel)]⟩ (goString "x") firstDraws 10
        = Run.panic :=
  ⟨by decide, by decide, by decide⟩

/-- A draw on a key that has no bag returns the placeholder. -/
theorem selectLink_absent (c : chain) (key : GoString) (d : Draw) (hd : d.Valid)
    (h : mapGet c key = none) : chain.selectLink c key d = sentinel := by
  have h1 : d.order [] = [] := List.Perm.eq_nil (hd.2.2 [])
  simp [chain.selectLink, h, h1, walk]

/-- A draw on a bag with a consistent, positive total returns a token of the bag. -/
theorem selectLink_mem (c : chain) (key : GoString) (bag : Bag) (d : Draw) (hd : d.Valid)
    (hbag : mapGet c key = some bag) (htotal : chain.tableLen c key = weightSum bag)
    (hpos : 0 < weightSum bag) : ∃ w, (chain.selectLink c key d, w) ∈ bag := by
  have hperm : (d.order bag).Perm bag := hd.2.2 bag
  have hlt : d.idx (chain.tableLen c key) < weightSum (d.order bag) := by
    rw [weightSum_perm hperm, ← htotal]
    exact hd.2.1 _ (by rw [htotal]; exact hpos)
  obtain ⟨pre, tok, w, post, h1, h2, _, _⟩ :=
    walk_split (d.idx (chain.tableLen c key)) (d.order bag) 0 (Nat.zero_le _) (by simpa using hlt)
  refine ⟨w, ?_⟩
  rw [selectLink_eq_walk c key d bag hbag, h2]
  apply hperm.mem_iff.1
  rw [h1]
  simp

/-- For a registered variant `GenerateName` never returns an error value. -/
theorem GenerateName_registered (g : generator) (variant : GoString) (c : chain)
    (rs : Nat → Draw) (fuel : Nat) (h : mapGet g.chains variant = some c)
    (name e : GoString) : g.GenerateName variant rs fuel ≠ Run.done (name, some e) := by
  unfold generator.GenerateName
  rw [h]
  simp only
  cases chain.markovName c rs fuel <;> simp

/-- On the model of the empty corpus the first draw of `markovName` returns the
placeholder string, and its assertion to `int` panics, whatever the registry,
the label and the draws. -/
theorem empty_model_panics (g : generator) (label : GoString) (rs : Nat → Draw) (fuel : Nat)
    (h0 : (rs 0).Valid) :
    generator.GenerateName ⟨mapSet g.chains label emptyModel⟩ label rs fuel = Run.panic := by
  have hsel : chain.selectLink emptyModel kParts (rs 0) = sentinel :=
    selectLink_absent emptyModel kParts (rs 0) h0 (by decide)
  unfold generator.GenerateName
  rw [mapGet_mapSet_self]
  simp only [chain.markovName, chain.markovWords, hsel, sentinel]

/-- C7 (code at the failing input): for the variant `y` seeded with the empty
corpus, `GenerateName` does not fail with an error value: it panics on the
assertion of the placeholder to `int` and returns nothing, whereas the sibling
branch for a variant that was never seeded returns the error "no sample data
exists" as a value together with the empty name. -/
theorem GenerateName_no_data_error_fails :
    New.SeedData (goString "y") [] = Run.done ⟨[(goString "y", emptyModel)]⟩ ∧
    mapGet emptyModel kParts = none ∧ mapGet emptyModel kNameLen = none ∧
    mapGet emptyModel kInitial = none ∧
    generator.GenerateName ⟨[(goString "y", emptyModel)]⟩ (goString "y") firstDraws 10
      = Run.panic ∧
    (¬ ∃ name e, generator.GenerateName ⟨[(goString "y", emptyModel)]⟩ (goString "y")
        firstDraws 10 = Run.done (name, some e)) ∧
    New.GenerateName (goString "y") firstDraws 10
      = Run.done ([], some (noSampleData (goString "y"))) := by
  have h1 : generator.GenerateName ⟨[(goString "y", emptyModel)]⟩ (goString "y")
      firstDraws 10 = Run.panic := by decide
  refine ⟨by decide, by decide, by decide, by decide, h1, ?_, by decide⟩
  rintro ⟨name, e, h⟩
  rw [h1] at h
  cases h

theorem wordLoop_done_of_not_lt (c : chain) (rs : Nat → Draw) (nameLength : Int) (fuel pos : Nat)
    (name lastChar : GoString) (h : ¬ (name.length : Int) < nameLength) :
    wordLoop c rs nameLength fuel pos name lastChar = Run.done (name, pos) := by
  cases fuel <;> simp [wordLoop, h]

theorem wordLoop_step (c : chain) (rs : Nat → Draw) (nameLength : Int) (fuel pos : Nat)
    (name lastChar char : GoString) (h : (name.length : Int) < nameLength)
    (hsel : chain.selectLink c lastChar (rs pos) = Token.str char) :
    wordLoop c rs nameLength (fuel + 1) pos name lastChar
      = wordLoop c rs nameLength fuel (pos + 1) (name ++ char) char := by
  rw [wordLoop]
  simp [h, hsel]

theorem sample_parts (d : Draw) (hd : d.Valid) :
    chain.selectLink sampleChain kParts d = Token.int 1 := by
  obtain ⟨w, hw⟩ := selectLink_mem sampleChain kParts [(Token.int 1, 4)] d hd
    (by decide) (by decide) (by decide)
  simp at hw
  exact hw.1

theorem sample_nameLen (d : Draw) (hd : d.Valid) :
    chain.selectLink sampleChain kNameLen d = Token.int 2 := by
  obtain ⟨w, hw⟩ := selectLink_mem sampleChain kNameLen [(Token.int 2, 4)] d hd
    (by decide) (by decide) (by decide)
  simp at hw
  exact hw.1

theorem sample_initial (d : Draw) (hd : d.Valid) :
    chain.selectLink sampleChain kInitial d = Token.str [65] ∨
    chain.selectLink sampleChain kInitial d = Token.str [66] := by
  obtain ⟨w, hw⟩ := selectLink_mem sampleChain kInitial
    [(Token.str [65], 2), (Token.str [66], 1)] d hd (by decide) (by decide) (by decide)
  simp at hw
  rcases hw with h | h
  · exact Or.inl h.1
  · exact Or.inr h.1

theorem sample_after_A (d : Draw) (hd : d.Valid) :
    chain.selectLink sampleChain [65] d = Token.str [97] ∨
    chain.selectLink sampleChain [65] d = Token.str [98] := by
  obtain ⟨w, hw⟩ := selectLink_mem sampleChain [65]
    [(Token.str [97], 1), (Token.str [98], 1)] d hd (by decide) (by decide) (by decide)
  simp at hw
  rcases hw with h | h
  · exact Or.inl h.1
  · exact Or.inr h.1

theorem sample_after_B (d : Draw) (hd : d.Valid) :
    chain.selectLink sampleChain [66] d = Token.str [97] := by
  obtain ⟨w, hw⟩ := selectLink_mem sampleChain [66] [(Token.str [97], 1)] d hd
    (by decide) (by decide) (by decide)
  simp at hw
  exact hw.1

/-- Every word grown from the sample chain has two characters, the first `A` or `B`, the
second `a` or `b`. -/
theorem sample_word (rs : Nat → Draw) (hrs : ∀ i, (rs i).Valid) (fuel pos : Nat) :
    ∃ x y, (x = 65 ∨ x = 66) ∧ (y = 97 ∨ y = 98) ∧
      chain.selectLink sampleChain kInitial (rs (pos + 1)) = Token.str [x] ∧
      wordLoop sampleChain rs 2 (fuel + 1) (pos + 2) [x] [x] = Run.done ([x, y], pos + 3) := by
  have hstop : ∀ x y : Nat, wordLoop sampleChain rs 2 fuel (pos + 2 + 1) ([x] ++ [y]) [y]
      = Run.done ([x, y], pos + 3) := fun x y =>
    wordLoop_done_of_not_lt _ _ _ _ _ _ _ (by simp)
  rcases sample_initial (rs (pos + 1)) (hrs _) with hA | hB
  · rcases sample_after_A (rs (pos + 2)) (hrs _) with ha | hb
    · exact ⟨65, 97, Or.inl rfl, Or.inl rfl, hA, by
        rw [wordLoop_step _ _ _ _ _ _ _ [97] (by simp) ha]; exact hstop 65 97⟩
    · exact ⟨65, 98, Or.inl rfl, Or.inr rfl, hA, by
        rw [wordLoop_step _ _ _ _ _ _ _ [98] (by simp) hb]; exact hstop 65 98⟩
  · exact ⟨66, 97, Or.inr rfl, Or.inl rfl, hB, by
      rw [wordLoop_step _ _ _ _ _ _ _ [97] (by simp) (sample_after_B (rs (pos + 2)) (hrs _))]
      exact hstop 66 97⟩

/-- C8: end-to-end example.  On a new generator, `SeedData("test", ["Aa", "Ab",
"Ba"])` returns; then `Variants()` is exactly `["test"]` whatever the order in
which the registry is walked, and for every sequence of valid draws (and at
least one loop iteration allowed per word) `GenerateName("test")` returns a nil
error and a name made of one word of two characters, the first `A` or `B`, the
second `a` or `b`. -/
theorem end_to_end_example (rs : Nat → Draw) (hrs : ∀ i, (rs i).Valid) (fuel : Nat)
    (hfuel : 1 ≤ fuel) (order : List (GoString × chain) → List (GoString × chain))
    (horder : ∀ l, (order l).Perm l) :
    New.SeedData (goString "test") [goString "Aa", goString "Ab", goString "Ba"]
      = Run.done ⟨[(goString "test", sampleChain)]⟩ ∧
    generator.Variants ⟨[(goString "test", sampleChain)]⟩ order = [goString "test"] ∧
    ∃ x y, (x = 65 ∨ x = 66) ∧ (y = 97 ∨ y = 98) ∧
      chain.markovWords sampleChain rs fuel = Run.done [(2, [x, y])] ∧
      generator.GenerateName ⟨[(goString "test", sampleChain)]⟩ (goString "test") rs fuel
        = Run.done ([x, y], none) := by
  refine ⟨by decide, ?_, ?_⟩
  · have h1 : order [(goString "test", sampleChain)] = [(goString "test", sampleChain)] :=
      List.perm_singleton.1 (horder _)
    simp [generator.Variants, h1, mapKeys]
  · obtain ⟨f, rfl⟩ : ∃ f, fuel = f + 1 := ⟨fuel - 1, by omega⟩
    obtain ⟨x, y, hx, hy, hinit, hloop⟩ := sample_word rs hrs f 1
    have hwords : chain.markovWords sampleChain rs (f + 1) = Run.done [(2, [x, y])] := by
      unfold chain.markovWords
      rw [sample_parts (rs 0) (hrs 0)]
      show namesLoop sampleChain rs (f + 1) 1 1 [] = _
      rw [namesLoop, sample_nameLen (rs 1) (hrs 1)]
      simp only
      rw [hinit]
      simp only
      rw [hloop]
      simp [namesLoop]
    refine ⟨x, y, hx, hy, hwords, ?_⟩
    have hget : mapGet (generator.mk [(goString "test", sampleChain)]).chains (goString "test")
        = some sampleChain := by decide
    unfold generator.GenerateName
    rw [hget]
    simp only [chain.markovName, hwords]
    simp [joinSpace]

/-- Witness for C8: first draws, ten iterations allowed, registry walked in stored order. -/
theorem end_to_end_example_witness :
    New.SeedData (goString "test") [goString "Aa", goString "Ab", goString "Ba"]
      = Run.done ⟨[(goString "test", sampleChain)]⟩ ∧
    generator.Variants ⟨[(goString "test", sampleChain)]⟩ id = [goString "test"] ∧
    ∃ x y, (x = 65 ∨ x = 66) ∧ (y = 97 ∨ y = 98) ∧
      chain.markovWords sampleChain firstDraws 10 = Run.done [(2, [x, y])] ∧
      generator.GenerateName ⟨[(goString "test", sampleChain)]⟩ (goString "test") firstDraws 10
        = Run.done ([x, y], none) :=
  end_to_end_example firstDraws (fun _ => ⟨rfl, fun _ h => h, fun b => List.Perm.refl b⟩) 10
    (by decide) id (fun l => List.Perm.refl l)

theorem mem_mapSet {κ ν : Type} [DecidableEq κ] (m : List (κ × ν)) (k : κ) (v : ν)
    (e : κ × ν) (h : e ∈ mapSet m k v) : e ∈ m ∨ e = (k, v) := by
  induction m with
  | nil => simp [mapSet] at h; exact Or.inr h
  | cons e0 m ih =>
    obtain ⟨k0, v0⟩ := e0
    by_cases h0 : k0 = k
    · subst h0
      simp only [mapSet, if_true, List.mem_cons] at h
      rcases h with h | h
      · exact Or.inr h
      · exact Or.inl (List.mem_cons_of_mem _ h)
    · simp only [mapSet, h0, if_false, List.mem_cons] at h
      rcases h with h | h
      · exact Or.inl (by rw [h]; exact List.mem_cons_self _ _)
      · rcases ih h with h1 | h1
        · exact Or.inl (List.mem_cons_of_mem _ h1)
        · exact Or.inr h1

theorem mapSet_ne_nil {κ ν : Type} [DecidableEq κ] (m : List (κ × ν)) (k : κ) (v : ν) :
    mapSet m k v ≠ [] := by
  cases m with
  | nil => simp [mapSet]
  | cons e m =>
    obtain ⟨k0, v0⟩ := e
    by_cases h0 : k0 = k <;> simp [mapSet, h0]

theorem RawOK_nil : RawOK [] := by
  intro k bag h
  simp at h

theorem RawOK_increment (c : chain) (key : GoString) (tok : Token) (hc : RawOK c)
    (htok : TokenOK key tok) : RawOK (chain.increment c key tok) := by
  intro k bag hmem
  rw [increment_eq] at hmem
  rcases mem_mapSet _ _ _ _ hmem with h | h
  · exact hc k bag h
  · simp only [Prod.mk.injEq] at h
    obtain ⟨hk, hbag⟩ := h
    subst hk; subst hbag
    refine ⟨mapSet_ne_nil _ _ _, ?_⟩
    intro tw htw
    rcases mem_mapSet _ _ _ _ htw with h1 | h1
    · cases hget : mapGet c k with
      | none => rw [hget] at h1; simp at h1
      | some v =>
        rw [hget] at h1
        exact (hc k v (mapGet_mem c k v hget)).2 tw h1
    · subst h1
      exact ⟨by simp, htok⟩

theorem RawOK_replay : ∀ (evs : List (GoString × Token)) (c : chain), RawOK c →
    (∀ e ∈ evs, TokenOK e.1 e.2) → RawOK (replay c evs) := by
  intro evs
  induction evs with
  | nil => intro c hc _; exact hc
  | cons e evs ih =>
    intro c hc h
    rw [replay_cons]
    exact ih _ (RawOK_increment c e.1 e.2 hc (h e (List.mem_cons_self _ _)))
      (fun e1 he1 => h e1 (List.mem_cons_of_mem _ he1))

theorem decodeRune_ascii (b : Nat) (t : GoString) (hb : b < 128) : decodeRune (b :: t) = (b, 1) := by
  simp [decodeRune, hb]

theorem runesAux_ascii : ∀ (s : GoString) (fuel : Nat), s.length ≤ fuel → (∀ b ∈ s, b < 128) →
    runesAux fuel s = s := by
  intro s
  induction s with
  | nil => intro fuel _ _; cases fuel <;> rfl
  | cons b t ih =>
    intro fuel hfuel hs
    cases fuel with
    | zero => simp at hfuel
    | succ fuel =>
      have hb : b < 128 := hs b (List.mem_cons_self _ _)
      simp only [runesAux, decodeRune_ascii b t hb, List.drop_succ_cons, List.drop_zero]
      rw [ih fuel (by simpa using hfuel) (fun x hx => hs x (List.mem_cons_of_mem _ hx))]

/-- On ASCII bytes `range` visits the bytes themselves. -/
theorem runes_ascii (s : GoString) (hs : ∀ b ∈ s, b < 128) : runes s = s :=
  runesAux_ascii s s.length (Nat.le_refl _) hs

theorem encodeRune_ascii (b : Nat) (hb : b < 128) : encodeRune b = [b] := by
  simp [encodeRune, hb]

theorem splitAux_bytes : ∀ (v cur : GoString) (inSep : Bool), ∀ w ∈ splitAux v cur inSep,
    ∀ b ∈ w, b ∈ cur ∨ b ∈ v := by
  intro v
  induction v with
  | nil =>
    intro cur inSep w hw b hb
    simp only [splitAux, List.mem_singleton] at hw
    subst hw
    exact Or.inl hb
  | cons x rest ih =>
    intro cur inSep w hw b hb
    simp only [splitAux] at hw
    split at hw
    · split at hw
      · rcases ih [] true w hw b hb with h | h
        · simp at h
        · exact Or.inr (List.mem_cons_of_mem _ h)
      · rcases List.mem_cons.1 hw with h | h
        · subst h; exact Or.inl hb
        · rcases ih [] true w h b hb with h1 | h1
          · simp at h1
          · exact Or.inr (List.mem_cons_of_mem _ h1)
    · rcases ih (cur ++ [x]) false w hw b hb with h | h
      · rcases List.mem_append.1 h with h1 | h1
        · exact Or.inl h1
        · simp at h1; subst h1; exact Or.inr (List.mem_cons_self _ _)
      · exact Or.inr (List.mem_cons_of_mem _ h)

theorem splitSpace_bytes (v w : GoString) (hw : w ∈ splitSpace v) (b : Nat) (hb : b ∈ w) :
    b ∈ v := by
  rcases splitAux_bytes v [] false w hw b hb with h | h
  · simp at h
  · exact h

theorem corpusWords_ascii (names : List GoString) (h : ∀ v ∈ names, ∀ b ∈ v, b < 128) :
    ∀ w ∈ corpusWords names, ∀ b ∈ w, b < 128 := by
  intro w hw b hb
  simp only [corpusWords, List.mem_flatMap] at hw
  obtain ⟨v, hv, hwv⟩ := hw
  exact h v hv b (splitSpace_bytes v w hwv b hb)

theorem TokenOK_parts (n : Int) : TokenOK kParts (Token.int n) := by
  simp [TokenOK]

theorem TokenOK_nameLen (n : Nat) (h : 1 ≤ n) : TokenOK kNameLen (Token.int n) := by
  have : kNameLen ≠ kParts := by decide
  simp only [TokenOK, this, if_false, if_true]
  exact ⟨n, h, rfl⟩

theorem TokenOK_char (k : GoString) (b : Nat) (h1 : k ≠ kParts) (h2 : k ≠ kNameLen)
    (hb : b < 128) : TokenOK k (Token.str [b]) := by
  simp only [TokenOK, h1, h2, if_false]
  exact ⟨b, hb, rfl⟩

theorem single_ne_parts (b : Nat) : [b] ≠ kParts := by
  intro h
  have h1 := congrArg List.length h
  have h2 : kParts.length = 5 := by decide
  rw [h2] at h1
  simp at h1

theorem single_ne_nameLen (b : Nat) : [b] ≠ kNameLen := by
  intro h
  have h1 := congrArg List.length h
  have h2 : kNameLen.length = 8 := by decide
  rw [h2] at h1
  simp at h1

theorem single_ne_tableLen (b : Nat) : [b] ≠ kTableLen := by
  intro h
  have h1 := congrArg List.length h
  have h2 : kTableLen.length = 9 := by decide
  rw [h2] at h1
  simp at h1

theorem pairEvents_ok : ∀ (rs : List Rune) (lastChar : Rune), lastChar < 128 →
    (∀ r ∈ rs, r < 128) → ∀ e ∈ pairEvents lastChar rs, TokenOK e.1 e.2 := by
  intro rs
  induction rs with
  | nil => intro _ _ _ e he; simp [pairEvents] at he
  | cons r rs ih =>
    intro lastChar hl hrs e he
    have hr : r < 128 := hrs r (List.mem_cons_self _ _)
    simp only [pairEvents, List.mem_cons] at he
    rcases he with h | h
    · subst h
      simp only [encodeRune_ascii _ hl, encodeRune_ascii _ hr]
      exact TokenOK_char _ _ (single_ne_parts lastChar) (single_ne_nameLen lastChar) hr
    · exact ih r hr (fun x hx => hrs x (List.mem_cons_of_mem _ hx)) e h

theorem wordEvents_ok (w : GoString) (hw : ∀ b ∈ w, b < 128) :
    ∀ e ∈ wordEvents w, TokenOK e.1 e.2 := by
  intro e he
  cases w with
  | nil => simp [wordEvents] at he
  | cons b0 tail =>
    have hb0 : b0 < 128 := hw b0 (List.mem_cons_self _ _)
    have htail : ∀ b ∈ tail, b < 128 := fun b hb => hw b (List.mem_cons_of_mem _ hb)
    simp only [wordEvents, List.mem_cons] at he
    rcases he with h | h | h
    · subst h
      exact TokenOK_nameLen _ (by simp)
    · subst h
      rw [encodeRune_ascii _ hb0]
      exact TokenOK_char kInitial b0 (by decide) (by decide) hb0
    · rw [runes_ascii tail htail] at h
      exact pairEvents_ok tail b0 hb0 htail e h

theorem corpusEvents_ok (names : List GoString) (h : ∀ v ∈ names, ∀ b ∈ v, b < 128) :
    ∀ e ∈ corpusEvents names, TokenOK e.1 e.2 := by
  intro e he
  simp only [corpusEvents, List.mem_flatMap, nameEvents, List.mem_cons] at he
  obtain ⟨v, hv, h1 | ⟨w, hw, hew⟩⟩ := he
  · subst h1; exact TokenOK_parts _
  · exact wordEvents_ok w (fun b hb => h v hv b (splitSpace_bytes v w hw b hb)) e hew

theorem weightSum_scaleBag_pos (bag : Bag) (hne : bag ≠ []) (hpos : ∀ tw ∈ bag, 1 ≤ tw.2) :
    0 < weightSum (scaleBag bag) := by
  cases bag with
  | nil => exact absurd rfl hne
  | cons e rest =>
    have h1 : 0 < scaled e.2 := scaled_pos _ (hpos e (List.mem_cons_self _ _))
    simp only [scaleBag, List.map_cons, weightSum_cons]
    omega

theorem scale_tableLen (c : chain) (k : GoString) (bag : Bag)
    (h : mapGet c k = some bag) : chain.tableLen (chain.scale c) k = weightSum (scaleBag bag) := by
  unfold chain.tableLen
  rw [scale_get_tableLen]
  simp only [Option.some_bind]
  rw [tableLen_get, h]
  rfl

/-- Rescaling a chain that satisfies the counting invariant gives a model ready for
generation. -/
theorem Ready_scale (c : chain) (hc : RawOK c) : chain.Ready (chain.scale c) := by
  intro k bag hk hget
  rw [scale_get c k hk] at hget
  cases hraw : mapGet c k with
  | none => rw [hraw] at hget; simp at hget
  | some v =>
    rw [hraw] at hget
    simp only [Option.map_some', Option.some.injEq] at hget
    subst hget
    obtain ⟨hne, hall⟩ := hc k v (mapGet_mem c k v hraw)
    refine ⟨scale_tableLen c k v hraw, weightSum_scaleBag_pos v hne (fun tw h => (hall tw h).1), ?_⟩
    intro tw htw
    simp only [scaleBag, List.mem_map] at htw
    obtain ⟨tc, htc, heq⟩ := htw
    rw [← heq]
    exact (hall tc htc).2

/-- The model built from a corpus of ASCII names is ready for generation. -/
theorem Ready_built (names : List GoString) (h : ∀ v ∈ names, ∀ b ∈ v, b < 128) :
    chain.Ready (chain.scale (replay [] (corpusEvents names))) :=
  Ready_scale _ (RawOK_replay _ _ RawOK_nil (corpusEvents_ok names h))

theorem Ready_select_mem (c : chain) (hc : chain.Ready c) (k : GoString) (hk : k ≠ kTableLen)
    (bag : Bag) (hbag : mapGet c k = some bag) (d : Draw) (hd : d.Valid) :
    (∃ w, (chain.selectLink c k d, w) ∈ bag) ∧ TokenOK k (chain.selectLink c k d) := by
  obtain ⟨h1, h2, h3⟩ := hc k bag hk hbag
  obtain ⟨w, hw⟩ := selectLink_mem c k bag d hd hbag h1 h2
  exact ⟨⟨w, hw⟩, h3 _ hw⟩

/-- In a ready model a draw on a character key gives a one-byte ASCII string (a learnt
successor or the placeholder). -/
theorem Ready_char (c : chain) (hc : chain.Ready c) (k : GoString) (h1 : k ≠ kParts)
    (h2 : k ≠ kNameLen) (h3 : k ≠ kTableLen) (d : Draw) (hd : d.Valid) :
    ∃ b, b < 128 ∧ chain.selectLink c k d = Token.str [b] := by
  cases hget : mapGet c k with
  | none => exact ⟨45, by norm_num, selectLink_absent c k d hd hget⟩
  | some bag =>
    have h := (Ready_select_mem c hc k h3 bag hget d hd).2
    simp only [TokenOK, h1, h2, if_false] at h
    exact h

theorem Ready_nameLen (c : chain) (hc : chain.Ready c) (d : Draw) (hd : d.Valid) :
    chain.selectLink c kNameLen d = sentinel ∨
    ∃ n : Nat, 1 ≤ n ∧ chain.selectLink c kNameLen d = Token.int n := by
  cases hget : mapGet c kNameLen with
  | none => exact Or.inl (selectLink_absent c kNameLen d hd hget)
  | some bag =>
    have h := (Ready_select_mem c hc kNameLen (by decide) bag hget d hd).2
    have hne : kNameLen ≠ kParts := by decide
    simp only [TokenOK, hne, if_false, if_true] at h
    exact Or.inr h

theorem Ready_parts (c : chain) (hc : chain.Ready c) (bag : Bag)
    (hget : mapGet c kParts = some bag) (d : Draw) (hd : d.Valid) :
    ∃ n : Int, chain.selectLink c kParts d = Token.int n := by
  have h := (Ready_select_mem c hc kParts (by decide) bag hget d hd).2
  simp only [TokenOK, if_true] at h
  exact h

/-- The word loop on a ready model: it never panics, the word it returns has
exactly `target` bytes, and `target - len(name)` iterations are enough. -/
theorem wordLoop_exact (c : chain) (hc : chain.Ready c) (rs : Nat → Draw)
    (hrs : ∀ i, (rs i).Valid) (target : Nat) : ∀ (fuel pos : Nat) (name : GoString) (b : Nat),
    b < 128 → (∀ x ∈ name, x < 128) → name.length ≤ target →
    (∀ r, wordLoop c rs target fuel pos name [b] = Run.done r →
      r.1.length = target ∧ ∀ x ∈ r.1, x < 128) ∧
    wordLoop c rs target fuel pos name [b] ≠ Run.panic ∧
    (target - name.length ≤ fuel → ∃ r, wordLoop c rs target fuel pos name [b] = Run.done r) := by
  intro fuel
  induction fuel with
  | zero =>
    intro pos name b _ hname hlen
    by_cases hlt : (name.length : Int) < (target : Int)
    · have h0 : wordLoop c rs target 0 pos name [b] = Run.noFuel := by
        rw [wordLoop]; simp [hlt]
      rw [h0]
      refine ⟨fun r h => (by cases h), (by simp), fun h => ?_⟩
      exfalso; omega
    · rw [wordLoop_done_of_not_lt _ _ _ _ _ _ _ hlt]
      refine ⟨fun r h => ?_, (by simp), fun _ => ⟨_, rfl⟩⟩
      cases h
      exact ⟨by simp; omega, hname⟩
  | succ fuel ih =>
    intro pos name b hb hname hlen
    by_cases hlt : (name.length : Int) < (target : Int)
    · obtain ⟨b1, hb1, hsel⟩ := Ready_char c hc [b] (single_ne_parts b) (single_ne_nameLen b)
        (single_ne_tableLen b) (rs pos) (hrs pos)
      rw [wordLoop_step c rs target fuel pos name [b] [b1] hlt hsel]
      have hname1 : ∀ x ∈ name ++ [b1], x < 128 := by
        intro x hx
        rcases List.mem_append.1 hx with h | h
        · exact hname x h
        · simp at h; subst h; exact hb1
      have hlen1 : (name ++ [b1]).length ≤ target := by simp; omega
      obtain ⟨i1, i2, i3⟩ := ih (pos + 1) (name ++ [b1]) b1 hb1 hname1 hlen1
      refine ⟨i1, i2, fun h => i3 ?_⟩
      simp
      omega
    · rw [wordLoop_done_of_not_lt _ _ _ _ _ _ _ hlt]
      refine ⟨fun r h => ?_, (by simp), fun _ => ⟨_, rfl⟩⟩
      cases h
      exact ⟨by simp; omega, hname⟩

theorem namesLoop_succ_int_str (c : chain) (rs : Nat → Draw) (fuel todo pos : Nat)
    (names : List (Int × GoString)) (nameLength : Int) (char : GoString)
    (h1 : chain.selectLink c kNameLen (rs pos) = Token.int nameLength)
    (h2 : chain.selectLink c kInitial (rs (pos + 1)) = Token.str char) :
    namesLoop c rs fuel (todo + 1) pos names
      = match wordLoop c rs nameLength fuel (pos + 2) char char with
        | Run.done (name, pos1) => namesLoop c rs fuel todo pos1 (names ++ [(nameLength, name)])
        | Run.panic => Run.panic
        | Run.noFuel => Run.noFuel := by
  rw [namesLoop, h1]
  simp only [h2]

theorem namesLoop_succ_str (c : chain) (rs : Nat → Draw) (fuel todo pos : Nat)
    (names : List (Int × GoString)) (s : GoString)
    (h1 : chain.selectLink c kNameLen (rs pos) = Token.str s) :
    namesLoop c rs fuel (todo + 1) pos names = Run.panic := by
  rw [namesLoop, h1]

/-- Every word returned by the loop over the parts of a name is exact. -/
theorem namesLoop_exact (c : chain) (hc : chain.Ready c) (rs : Nat → Draw)
    (hrs : ∀ i, (rs i).Valid) (fuel : Nat) : ∀ (todo pos : Nat) (acc : List (Int × GoString)),
    (∀ tw ∈ acc, ExactWord tw) →
    ∀ ws, namesLoop c rs fuel todo pos acc = Run.done ws → ∀ tw ∈ ws, ExactWord tw := by
  intro todo
  induction todo with
  | zero =>
    intro pos acc hacc ws h
    simp only [namesLoop, Run.done.injEq] at h
    subst h
    exact hacc
  | succ todo ih =>
    intro pos acc hacc ws h
    rcases Ready_nameLen c hc (rs pos) (hrs pos) with hs | ⟨n, hn, hsel⟩
    · rw [namesLoop_succ_str c rs fuel todo pos acc [45] hs] at h
      cases h
    · obtain ⟨b, hb, hinit⟩ := Ready_char c hc kInitial (by decide) (by decide) (by decide)
        (rs (pos + 1)) (hrs (pos + 1))
      rw [namesLoop_succ_int_str c rs fuel todo pos acc n [b] hsel hinit] at h
      obtain ⟨w1, _, _⟩ := wordLoop_exact c hc rs hrs n fuel (pos + 2) [b] b hb
        (by intro x hx; simp at hx; subst hx; exact hb) (by simpa using hn)
      cases hw : wordLoop c rs (n : Int) fuel (pos + 2) [b] [b] with
      | done r =>
        obtain ⟨name, pos1⟩ := r
        rw [hw] at h
        simp only at h
        obtain ⟨e1, e2⟩ := w1 (name, pos1) hw
        apply ih pos1 (acc ++ [((n : Int), name)]) _ ws h
        intro tw htw
        rcases List.mem_append.1 htw with h3 | h3
        · exact hacc tw h3
        · simp at h3
          subst h3
          exact ⟨by simpa using e1, e2⟩
      | panic => rw [hw] at h; cases h
      | noFuel => rw [hw] at h; cases h

/-- With a `"name_len"` bag whose targets are at most `M` and `M` iterations
allowed per word, the loop over the parts of a name returns. -/
theorem namesLoop_returns (c : chain) (hc : chain.Ready c) (rs : Nat → Draw)
    (hrs : ∀ i, (rs i).Valid) (fuel M : Nat) (hfuel : M ≤ fuel) (bag : Bag)
    (hbag : mapGet c kNameLen = some bag)
    (hM : ∀ tw ∈ bag, ∀ n : Int, tw.1 = Token.int n → n ≤ M) :
    ∀ (todo pos : Nat) (acc : List (Int × GoString)),
    ∃ ws, namesLoop c rs fuel todo pos acc = Run.done ws := by
  intro todo
  induction todo with
  | zero => intro pos acc; exact ⟨acc, rfl⟩
  | succ todo ih =>
    intro pos acc
    obtain ⟨⟨w, hmem⟩, htok⟩ :=
      Ready_select_mem c hc kNameLen (by decide) bag hbag (rs pos) (hrs pos)
    have hne : kNameLen ≠ kParts := by decide
    simp only [TokenOK, hne, if_false, if_true] at htok
    obtain ⟨n, hn, hsel⟩ := htok
    have hnM : (n : Int) ≤ M := hM _ hmem n hsel
    obtain ⟨b, hb, hinit⟩ := Ready_char c hc kInitial (by decide) (by decide) (by decide)
      (rs (pos + 1)) (hrs (pos + 1))
    rw [namesLoop_succ_int_str c rs fuel todo pos acc n [b] hsel hinit]
    obtain ⟨_, _, w3⟩ := wordLoop_exact c hc rs hrs n fuel (pos + 2) [b] b hb
      (by intro x hx; simp at hx; subst hx; exact hb) (by simpa using hn)
    obtain ⟨r, hr⟩ := w3 (by simp; omega)
    obtain ⟨name, pos1⟩ := r
    rw [hr]
    exact ih pos1 _

theorem bag_int_bound : ∀ (bag : Bag), ∃ M : Nat, ∀ tw ∈ bag, ∀ n : Int, tw.1 = Token.int n → n ≤ M := by
  intro bag
  induction bag with
  | nil => exact ⟨0, fun tw h => by simp at h⟩
  | cons e rest ih =>
    obtain ⟨M, hM⟩ := ih
    cases he : e.1 with
    | int m =>
      refine ⟨M + m.toNat, ?_⟩
      intro tw htw n hn
      rcases List.mem_cons.1 htw with h | h
      · subst h
        rw [he] at hn
        cases hn
        have := Int.self_le_toNat m
        push_cast
        omega
      · have := hM tw h n hn
        push_cast
        omega
    | str s =>
      refine ⟨M, ?_⟩
      intro tw htw n hn
      rcases List.mem_cons.1 htw with h | h
      · subst h; rw [he] at hn; cases hn
      · exact hM tw h n hn

theorem splitAux_ne_nil : ∀ (v cur : GoString) (inSep : Bool), splitAux v cur inSep ≠ [] := by
  intro v
  induction v with
  | nil => intro cur inSep; simp [splitAux]
  | cons b rest ih =>
    intro cur inSep
    simp only [splitAux]
    split
    · split
      · exact ih _ _
      · simp
    · exact ih _ _

theorem nameEvents_has_nameLen (v : GoString) (h : ∀ w ∈ splitSpace v, w ≠ []) :
    kNameLen ∈ (nameEvents v).map Prod.fst := by
  have hne : splitSpace v ≠ [] := splitAux_ne_nil v [] false
  cases hs : splitSpace v with
  | nil => exact absurd hs hne
  | cons w ws =>
    have hw : w ≠ [] := h w (by rw [hs]; exact List.mem_cons_self _ _)
    cases w with
    | nil => exact absurd rfl hw
    | cons b0 tail => simp [nameEvents, hs, wordEvents]

/-- A model built from a non-empty corpus of non-empty words has bags for `"parts"` and
`"name_len"`. -/
theorem built_has_bags (names : List GoString) (hne : names ≠ [])
    (h : ∀ w ∈ corpusWords names, w ≠ []) :
    (∃ bag, mapGet (chain.scale (replay [] (corpusEvents names))) kParts = some bag) ∧
    (∃ bag, mapGet (chain.scale (replay [] (corpusEvents names))) kNameLen = some bag) := by
  cases names with
  | nil => exact absurd rfl hne
  | cons v rest =>
    have hv : ∀ w ∈ splitSpace v, w ≠ [] := fun w hw =>
      h w (by simp [corpusWords]; exact Or.inl hw)
    have h1 : (mapGet (replay [] (corpusEvents (v :: rest))) kParts).isSome := by
      rw [replay_get_isSome]
      right
      simp [corpusEvents, nameEvents]
    have h2 : (mapGet (replay [] (corpusEvents (v :: rest))) kNameLen).isSome := by
      rw [replay_get_isSome]
      right
      have := nameEvents_has_nameLen v hv
      simp only [corpusEvents, List.flatMap_cons, List.map_append, List.mem_append]
      exact Or.inl this
    constructor
    · rw [scale_get _ kParts (by decide)]
      obtain ⟨bag, hbag⟩ := Option.isSome_iff_exists.1 h1
      exact ⟨scaleBag bag, by rw [hbag]; rfl⟩
    · rw [scale_get _ kNameLen (by decide)]
      obtain ⟨bag, hbag⟩ := Option.isSome_iff_exists.1 h2
      exact ⟨scaleBag bag, by rw [hbag]; rfl⟩

theorem markovWords_exact (c : chain) (hc : chain.Ready c) (rs : Nat → Draw)
    (hrs : ∀ i, (rs i).Valid) (fuel : Nat) (ws : List (Int × GoString))
    (h : chain.markovWords c rs fuel = Run.done ws) : ∀ tw ∈ ws, ExactWord tw := by
  unfold chain.markovWords at h
  split at h
  · exact namesLoop_exact c hc rs hrs fuel _ 1 [] (fun tw htw => by simp at htw) ws h
  · cases h

theorem markovWords_returns (c : chain) (hc : chain.Ready c) (rs : Nat → Draw)
    (hrs : ∀ i, (rs i).Valid) (bagP bagN : Bag) (hP : mapGet c kParts = some bagP)
    (hN : mapGet c kNameLen = some bagN) :
    ∃ N, ∀ fuel, N ≤ fuel → ∃ ws, chain.markovWords c rs fuel = Run.done ws := by
  obtain ⟨M, hM⟩ := bag_int_bound bagN
  refine ⟨M, fun fuel hfuel => ?_⟩
  obtain ⟨n, hn⟩ := Ready_parts c hc bagP hP (rs 0) (hrs 0)
  unfold chain.markovWords
  rw [hn]
  exact namesLoop_returns c hc rs hrs fuel M hfuel bagN hN hM _ 1 []

theorem ExactWord_chars (tw : Int × GoString) (h : ExactWord tw) :
    (lengthInChars tw.2 : Int) = tw.1 := by
  unfold lengthInChars
  rw [runes_ascii tw.2 h.2]
  exact h.1

/-- C5 (as amended): word length exactness for ASCII corpora.  For every corpus
of ASCII names with non-empty words `SeedData` returns, and for every sequence of
valid draws: (1) whenever name generation returns, each word has exactly as many
bytes, and as many characters, as the target length drawn for it from
`"name_len"` (the loop never overshoots); (2) when the corpus is not empty,
generation does return, with a nil error and the words joined by single spaces,
as soon as enough loop iterations are allowed. -/
theorem word_length_exact_ascii (g : generator) (label : GoString) (names : List GoString)
    (hascii : ∀ v ∈ names, ∀ b ∈ v, b < 128) (hwords : ∀ w ∈ corpusWords names, w ≠ [])
    (rs : Nat → Draw) (hrs : ∀ i, (rs i).Valid) :
    ∃ c, g.SeedData label names = Run.done ⟨mapSet g.chains label c⟩ ∧
      mapGet (mapSet g.chains label c) label = some c ∧
      (∀ fuel ws, chain.markovWords c rs fuel = Run.done ws →
        ∀ tw ∈ ws, (tw.2.length : Int) = tw.1 ∧ (lengthInChars tw.2 : Int) = tw.1) ∧
      (names ≠ [] → ∃ N, ∀ fuel, N ≤ fuel → ∃ ws,
        chain.markovWords c rs fuel = Run.done ws ∧
        generator.GenerateName ⟨mapSet g.chains label c⟩ label rs fuel
          = Run.done (joinSpace (ws.map Prod.snd), none)) := by
  have hc : chain.Ready (chain.scale (replay [] (corpusEvents names))) := Ready_built names hascii
  refine ⟨_, SeedData_eq g label names hwords, mapGet_mapSet_self _ _ _, ?_, ?_⟩
  · intro fuel ws h tw htw
    have hex := markovWords_exact _ hc rs hrs fuel ws h tw htw
    exact ⟨hex.1, ExactWord_chars tw hex⟩
  · intro hne
    obtain ⟨⟨bagP, hP⟩, ⟨bagN, hN⟩⟩ := built_has_bags names hne hwords
    obtain ⟨N, hN1⟩ := markovWords_returns _ hc rs hrs bagP bagN hP hN
    refine ⟨N, fun fuel hfuel => ?_⟩
    obtain ⟨ws, hws⟩ := hN1 fuel hfuel
    refine ⟨ws, hws, ?_⟩
    unfold generator.GenerateName
    simp only [mapGet_mapSet_self, chain.markovName, hws]

/-- Witness for C5 (as amended): the corpus `Aa`, `Ab`, `Ba`, first draws. -/
theorem word_length_exact_ascii_witness :
    ∃ c, New.SeedData (goString "test") [goString "Aa", goString "Ab", goString "Ba"]
        = Run.done ⟨mapSet New.chains (goString "test") c⟩ ∧
      mapGet (mapSet New.chains (goString "test") c) (goString "test") = some c ∧
      (∀ fuel ws, chain.markovWords c firstDraws fuel = Run.done ws →
        ∀ tw ∈ ws, (tw.2.length : Int) = tw.1 ∧ (lengthInChars tw.2 : Int) = tw.1) ∧
      ([goString "Aa", goString "Ab", goString "Ba"] ≠ [] → ∃ N, ∀ fuel, N ≤ fuel → ∃ ws,
        chain.markovWords c firstDraws fuel = Run.done ws ∧
        generator.GenerateName ⟨mapSet New.chains (goString "test") c⟩ (goString "test")
          firstDraws fuel = Run.done (joinSpace (ws.map Prod.snd), none)) :=
  word_length_exact_ascii New (goString "test") [goString "Aa", goString "Ab", goString "Ba"]
    (by decide) (by decide) firstDraws (fun _ => ⟨rfl, fun _ h => h, fun b => List.Perm.refl b⟩)

theorem overshootDraws_valid (i : Nat) : (overshootDraws i).Valid := by
  unfold overshootDraws
  split
  · exact ⟨rfl, fun n h => Nat.sub_lt h Nat.one_pos, fun b => List.Perm.refl b⟩
  · exact ⟨rfl, fun _ h => h, fun b => List.Perm.refl b⟩

/-- C5, counterexample: seeded with `aéé` and `abcd`, under valid draws that pick
the target length 4, the initial `a` and then `é` twice, `GenerateName` returns
the word `aéé`: five bytes and three characters for a drawn target of four, so
the loop overshoots. -/
theorem word_length_overshoots :
    (∀ i, (overshootDraws i).Valid) ∧
    ∃ c, New.SeedData (goString "t") [goString "aéé", goString "abcd"]
        = Run.done ⟨[(goString "t", c)]⟩ ∧
      chain.markovWords c overshootDraws 10 = Run.done [(4, goString "aéé")] ∧
      generator.GenerateName ⟨[(goString "t", c)]⟩ (goString "t") overshootDraws 10
        = Run.done (goString "aéé", none) ∧
      (goString "aéé").length = 5 ∧ lengthInChars (goString "aéé") = 3 :=
  ⟨overshootDraws_valid, _, rfl, by decide, by decide, by decide, by decide⟩

/-- The scaling transform is monotone. -/
theorem scaled_le_of_le (a b : Nat) (h : a ≤ b) : scaled a ≤ scaled b := by
  have ha := (scaled_eq_iff a (scaled a)).1 rfl
  have hb := (scaled_eq_iff b (scaled b)).1 rfl
  by_contra hlt
  push_neg at hlt
  have h1 : (scaled b + 1) ^ 10 ≤ scaled a ^ 10 := Nat.pow_le_pow_left hlt 10
  have h2 : a ^ 13 ≤ b ^ 13 := Nat.pow_le_pow_left h 13
  omega

/-- C12: monotonic weighting.  For raw counts `c1 > c2 ≥ 1` the scaled weights
satisfy `floor(c1^1.3) ≥ floor(c2^1.3)`. -/
theorem scaled_monotonic (c1 c2 : Nat) (h : c2 < c1) (_h2 : 1 ≤ c2) : scaled c2 ≤ scaled c1 :=
  scaled_le_of_le c2 c1 (Nat.le_of_lt h)

/-- Witness for C12: the counts 3 and 2. -/
theorem scaled_monotonic_witness : scaled 2 ≤ scaled 3 :=
  scaled_monotonic 3 2 (by decide) (by decide)

/-- C14: registry isolation.  When `SeedData(a, names)` returns, the model stored
under any other label `b` is what it was (absent if it was absent), and
`GenerateName(b)` gives the same outcome under the same draws. -/
theorem SeedData_isolation (g g1 : generator) (a b : GoString) (names : List GoString)
    (hab : a ≠ b) (h : g.SeedData a names = Run.done g1) :
    mapGet g1.chains b = mapGet g.chains b ∧
    ∀ rs fuel, g1.GenerateName b rs fuel = g.GenerateName b rs fuel := by
  obtain ⟨_, hg1⟩ := SeedData_done g g1 a names h
  subst hg1
  have hget : mapGet (mapSet g.chains a (chain.scale (replay [] (corpusEvents names)))) b
      = mapGet g.chains b := mapGet_mapSet_ne _ _ _ _ hab
  refine ⟨hget, fun rs fuel => ?_⟩
  unfold generator.GenerateName
  simp only [hget]

/-- Witness for C14: seeding `a` on a generator that holds the sample model under `test`. -/
theorem SeedData_isolation_witness :
    mapGet (generator.mk [(goString "test", sampleChain), (goString "a", emptyModel)]).chains
        (goString "test")
      = mapGet (generator.mk [(goString "test", sampleChain)]).chains (goString "test") ∧
    ∀ rs fuel,
      generator.GenerateName ⟨[(goString "test", sampleChain), (goString "a", emptyModel)]⟩
          (goString "test") rs fuel
        = generator.GenerateName ⟨[(goString "test", sampleChain)]⟩ (goString "test") rs fuel :=
  SeedData_isolation ⟨[(goString "test", sampleChain)]⟩
    ⟨[(goString "test", sampleChain), (goString "a", emptyModel)]⟩ (goString "a")
    (goString "test") [] (by decide) (by decide)

/-- C15: re-seeding replaces.  For corpora with non-empty words, both calls
return, and the model stored under `label` after `SeedData(label, names1)`
followed by `SeedData(label, names2)` is the model stored by
`SeedData(label, names2)` alone on a new generator. -/
theorem SeedData_replaces (g : generator) (label : GoString) (names1 names2 : List GoString)
    (h1 : ∀ w ∈ corpusWords names1, w ≠ []) (h2 : ∀ w ∈ corpusWords names2, w ≠ []) :
    ∃ g1 g2 g3, g.SeedData label names1 = Run.done g1 ∧ g1.SeedData label names2 = Run.done g2 ∧
      New.SeedData label names2 = Run.done g3 ∧
      mapGet g2.chains label = mapGet g3.chains label ∧
      mapGet g3.chains label = some (chain.scale (replay [] (corpusEvents names2))) := by
  refine ⟨_, _, _, SeedData_eq g label names1 h1, SeedData_eq _ label names2 h2,
    SeedData_eq New label names2 h2, ?_, ?_⟩
  · rw [mapGet_mapSet_self, mapGet_mapSet_self]
  · rw [mapGet_mapSet_self]

/-- Witness for C15: `Ab` then `Aa`, `Ab`, `Ba` under `test` on a new generator. -/
theorem SeedData_replaces_witness :
    ∃ g1 g2 g3, New.SeedData (goString "test") [goString "Ab"] = Run.done g1 ∧
      g1.SeedData (goString "test") [goString "Aa", goString "Ab", goString "Ba"] = Run.done g2 ∧
      New.SeedData (goString "test") [goString "Aa", goString "Ab", goString "Ba"] = Run.done g3 ∧
      mapGet g2.chains (goString "test") = mapGet g3.chains (goString "test") ∧
      mapGet g3.chains (goString "test")
        = some (chain.scale (replay [] (corpusEvents [goString "Aa", goString "Ab", goString "Ba"]))) :=
  SeedData_replaces New (goString "test") [goString "Ab"]
    [goString "Aa", goString "Ab", goString "Ba"] (by decide) (by decide)

theorem firstDraws_valid (i : Nat) : (firstDraws i).Valid :=
  ⟨rfl, fun _ h => h, fun b => List.Perm.refl b⟩

theorem reversedDraws_valid (i : Nat) : (reversedDraws i).Valid :=
  ⟨rfl, fun _ h => h, fun b => List.reverse_perm b⟩

theorem placeholderDraws_valid (i : Nat) : (placeholderDraws i).Valid := by
  unfold placeholderDraws
  split
  · exact ⟨rfl, fun n h => Nat.sub_lt h Nat.one_pos, fun b => List.Perm.refl b⟩
  · exact ⟨rfl, fun _ h => h, fun b => List.Perm.refl b⟩

/-- C13, counterexample: on the sample model, two valid draw sources deliver the
same random values (index 0 at every draw) but walk the bags in different
orders; the draw on `"initial"` returns `A` under one and `B` under the other,
and `GenerateName` returns `Aa` under one and `Ba` under the other. -/
theorem draw_depends_on_walk_order :
    (∀ i, (firstDraws i).Valid) ∧ (∀ i, (reversedDraws i).Valid) ∧
    (∀ i n, (firstDraws i).idx n = (reversedDraws i).idx n) ∧
    chain.selectLink sampleChain kInitial (firstDraws 2) = Token.str (goString "A") ∧
    chain.selectLink sampleChain kInitial (reversedDraws 2) = Token.str (goString "B") ∧
    generator.GenerateName ⟨[(goString "test", sampleChain)]⟩ (goString "test") firstDraws 10
      = Run.done (goString "Aa", none) ∧
    generator.GenerateName ⟨[(goString "test", sampleChain)]⟩ (goString "test") reversedDraws 10
      = Run.done (goString "Ba", none) :=
  ⟨firstDraws_valid, reversedDraws_valid, fun _ _ => rfl, by decide, by decide, by decide,
    by decide⟩

/-- C18: placeholder on missing context.  A weighted draw on a context key that
has no bag returns the sentinel `"-"` under every valid draw; and seeded with
`Abc`, `Ac` (no `-` in the corpus, `c` only ever a final letter), under valid
draws that pick target 3, initial `A` and successor `c`, `GenerateName` returns
a nil error and the name `Ac-`, which contains the placeholder. -/
theorem placeholder_on_missing_context (c : chain) (key : GoString) (d : Draw) (hd : d.Valid)
    (h : mapGet c key = none) :
    chain.selectLink c key d = Token.str (goString "-") ∧
    (∀ i, (placeholderDraws i).Valid) ∧
    New.SeedData (goString "v") [goString "Abc", goString "Ac"]
      = Run.done ⟨[(goString "v", finalLetterChain)]⟩ ∧
    mapGet finalLetterChain (goString "c") = none ∧
    generator.GenerateName ⟨[(goString "v", finalLetterChain)]⟩ (goString "v") placeholderDraws 10
      = Run.done (goString "Ac-", none) ∧
    (∀ v ∈ [goString "Abc", goString "Ac"], 45 ∉ v) ∧ 45 ∈ goString "Ac-" :=
  ⟨selectLink_absent c key d hd h, placeholderDraws_valid, by decide, by decide, by decide,
    by decide, by decide⟩

/-- Witness for C18: the key `c` of the model built from `Abc`, `Ac`, first draw. -/
theorem placeholder_on_missing_context_witness :
    chain.selectLink finalLetterChain (goString "c") (firstDraws 0) = Token.str (goString "-") ∧
    (∀ i, (placeholderDraws i).Valid) ∧
    New.SeedData (goString "v") [goString "Abc", goString "Ac"]
      = Run.done ⟨[(goString "v", finalLetterChain)]⟩ ∧
    mapGet finalLetterChain (goString "c") = none ∧
    generator.GenerateName ⟨[(goString "v", finalLetterChain)]⟩ (goString "v") placeholderDraws 10
      = Run.done (goString "Ac-", none) ∧
    (∀ v ∈ [goString "Abc", goString "Ac"], 45 ∉ v) ∧ 45 ∈ goString "Ac-" :=
  placeholder_on_missing_context finalLetterChain (goString "c") (firstDraws 0)
    (firstDraws_valid 0) (by decide)

theorem seedAll_keys : ∀ (calls : List (GoString × List GoString)) (g0 g : generator),
    seedAll g0 calls = Run.done g → (mapKeys g0.chains).Nodup →
    (mapKeys g.chains).Nodup ∧
    ∀ l, l ∈ mapKeys g.chains ↔ l ∈ mapKeys g0.chains ∨ l ∈ calls.map Prod.fst := by
  intro calls
  induction calls with
  | nil =>
    intro g0 g h hnd
    simp only [seedAll, Run.done.injEq] at h
    subst h
    exact ⟨hnd, fun l => by simp⟩
  | cons call rest ih =>
    intro g0 g h hnd
    simp only [seedAll] at h
    cases hs : g0.SeedData call.1 call.2 with
    | done g1 =>
      rw [hs] at h
      simp only at h
      obtain ⟨_, hg1⟩ := SeedData_done g0 g1 call.1 call.2 hs
      have hnd1 : (mapKeys g1.chains).Nodup := by
        rw [hg1]; exact mapKeys_mapSet_nodup _ _ _ hnd
      obtain ⟨i1, i2⟩ := ih g1 g h hnd1
      refine ⟨i1, fun l => ?_⟩
      rw [i2 l, hg1]
      simp only [mapKeys_mapSet, List.map_cons, List.mem_cons]
      split
      · rename_i hmem
        constructor
        · rintro (h1 | h1)
          · exact Or.inl h1
          · exact Or.inr (Or.inr h1)
        · rintro (h1 | h1 | h1)
          · exact Or.inl h1
          · subst h1; exact Or.inl hmem
          · exact Or.inr h1
      · simp only [List.mem_append, List.mem_singleton]
        constructor
        · rintro ((h1 | h1) | h1)
          · exact Or.inl h1
          · exact Or.inr (Or.inl h1)
          · exact Or.inr (Or.inr h1)
        · rintro (h1 | h1 | h1)
          · exact Or.inl (Or.inl h1)
          · exact Or.inl (Or.inr h1)
          · exact Or.inr h1
    | panic => rw [hs] at h; cases h
    | noFuel => rw [hs] at h; cases h

/-- C16: after a history of `SeedData` calls on a new generator that all
returned, `Variants()` (whatever the order in which the registry is walked)
contains every label passed to `SeedData` exactly once and nothing else, its
length is the number of distinct seeded labels, and it is empty on `New()`. -/
theorem Variants_labels (calls : List (GoString × List GoString)) (g : generator)
    (order : List (GoString × chain) → List (GoString × chain))
    (horder : ∀ l, (order l).Perm l) (h : seedAll New calls = Run.done g) :
    (g.Variants order).Nodup ∧
    (∀ l, l ∈ g.Variants order ↔ l ∈ calls.map Prod.fst) ∧
    (g.Variants order).length = (calls.map Prod.fst).dedup.length ∧
    New.Variants order = [] := by
  obtain ⟨hnd, hmem⟩ := seedAll_keys calls New g h (by simp [New, mapKeys])
  have hperm : (g.Variants order).Perm (mapKeys g.chains) := by
    unfold generator.Variants mapKeys
    exact (horder g.chains).map Prod.fst
  have hnd1 : (g.Variants order).Nodup := hperm.nodup_iff.2 hnd
  have hmem1 : ∀ l, l ∈ g.Variants order ↔ l ∈ calls.map Prod.fst := by
    intro l
    rw [hperm.mem_iff, hmem l]
    simp [New, mapKeys]
  refine ⟨hnd1, hmem1, ?_, ?_⟩
  · apply List.Perm.length_eq
    rw [List.perm_ext_iff_of_nodup hnd1 (List.nodup_dedup _)]
    intro l
    rw [hmem1 l, List.mem_dedup]
  · have : order New.chains = [] := List.Perm.eq_nil (horder _)
    simp [generator.Variants, this, mapKeys]

/-- Witness for C16: `test` seeded twice and `x` once, registry walked in stored order. -/
theorem Variants_labels_witness :
    (generator.Variants ⟨[(goString "test", sampleChain), (goString "x", emptyModel)]⟩ id).Nodup ∧
    (∀ l, l ∈ generator.Variants ⟨[(goString "test", sampleChain), (goString "x", emptyModel)]⟩ id
      ↔ l ∈ [(goString "test", [goString "Ab"]), (goString "x", []),
          (goString "test", [goString "Aa", goString "Ab", goString "Ba"])].map Prod.fst) ∧
    (generator.Variants ⟨[(goString "test", sampleChain), (goString "x", emptyModel)]⟩ id).length
      = ([(goString "test", [goString "Ab"]), (goString "x", []),
          (goString "test", [goString "Aa", goString "Ab", goString "Ba"])].map Prod.fst).dedup.length ∧
    New.Variants id = [] :=
  Variants_labels [(goString "test", [goString "Ab"]), (goString "x", []),
      (goString "test", [goString "Aa", goString "Ab", goString "Ba"])]
    ⟨[(goString "test", sampleChain), (goString "x", emptyModel)]⟩ id
    (fun l => List.Perm.refl l) (by decide)

theorem endsWithSpace_cons (b : Nat) (rest : GoString) :
    endsWithSpace (b :: rest) = if rest = [] then isSpace b else endsWithSpace rest := by
  cases rest with
  | nil => simp [endsWithSpace]
  | cons c t => simp [endsWithSpace]

theorem splitAux_cons_space (b : Nat) (rest cur : GoString) (inSep : Bool)
    (hb : isSpace b = true) :
    splitAux (b :: rest) cur inSep
      = if inSep = true then splitAux rest [] true else cur :: splitAux rest [] true := by
  simp [splitAux, hb]

theorem splitAux_cons_word (b : Nat) (rest cur : GoString) (inSep : Bool)
    (hb : isSpace b = false) :
    splitAux (b :: rest) cur inSep = splitAux rest (cur ++ [b]) false := by
  simp [splitAux, hb]

theorem splitAux_empty_word : ∀ (v : GoString),
    ([] ∈ splitAux v [] true ↔ v = [] ∨ endsWithSpace v = true) ∧
    ∀ cur : GoString, cur ≠ [] → ([] ∈ splitAux v cur false ↔ endsWithSpace v = true) := by
  intro v
  induction v with
  | nil =>
    refine ⟨by simp [splitAux], fun cur hcur => ?_⟩
    simp only [splitAux, List.mem_singleton, endsWithSpace, List.getLast?_nil]
    constructor
    · intro h; exact absurd h.symm hcur
    · intro h; cases h
  | cons b rest ih =>
    obtain ⟨ihS, ihW⟩ := ih
    cases hb : isSpace b with
    | true =>
      have hS : [] ∈ splitAux rest [] true ↔ endsWithSpace (b :: rest) = true := by
        rw [ihS, endsWithSpace_cons]
        by_cases hr : rest = []
        · simp [hr, hb]
        · simp [hr]
      refine ⟨?_, fun cur hcur => ?_⟩
      · rw [splitAux_cons_space b rest [] true hb]
        simp only [if_true, hS]
        simp
      · rw [splitAux_cons_space b rest cur false hb]
        have hne : ¬ ([] = cur) := fun h => hcur h.symm
        simp only [Bool.false_eq_true, if_false, List.mem_cons, hne, false_or, hS]
    | false =>
      have hW : ∀ cur : GoString, [] ∈ splitAux rest (cur ++ [b]) false
          ↔ endsWithSpace (b :: rest) = true := by
        intro cur
        rw [ihW (cur ++ [b]) (by simp), endsWithSpace_cons]
        by_cases hr : rest = []
        · subst hr; simp [hb, endsWithSpace]
        · simp [hr]
      refine ⟨?_, fun cur _ => ?_⟩
      · rw [splitAux_cons_word b rest [] true hb, hW]
        simp
      · rw [splitAux_cons_word b rest cur false hb, hW]

/-- The split of a name has an empty piece exactly when the name is empty or begins or ends
with whitespace. -/
theorem splitSpace_empty_word (v : GoString) :
    [] ∈ splitSpace v ↔ v = [] ∨ startsWithSpace v = true ∨ endsWithSpace v = true := by
  cases v with
  | nil => simp [splitSpace, splitAux]
  | cons b rest =>
    unfold splitSpace
    cases hb : isSpace b with
    | true =>
      rw [splitAux_cons_space b rest [] false hb]
      simp [startsWithSpace, hb]
    | false =>
      rw [splitAux_cons_word b rest [] false hb, (splitAux_empty_word rest).2 ([] ++ [b]) (by simp),
        endsWithSpace_cons]
      by_cases hr : rest = []
      · subst hr; simp [hb, endsWithSpace, startsWithSpace]
      · simp [hr, startsWithSpace, hb]

theorem SeedData_ne_noFuel (g : generator) (label : GoString) (names : List GoString) :
    g.SeedData label names ≠ Run.noFuel := by
  unfold generator.SeedData
  cases h : learn [] names with
  | done c => simp
  | panic => simp
  | noFuel => exact absurd h (learn_ne_noFuel names [])

theorem SeedData_panic_iff_empty_word (g : generator) (label : GoString) (names : List GoString) :
    g.SeedData label names = Run.panic ↔ ∃ w ∈ corpusWords names, w = [] := by
  constructor
  · intro h
    by_contra hcon
    push_neg at hcon
    rw [SeedData_eq g label names hcon] at h
    cases h
  · rintro ⟨w, hw, hnil⟩
    cases h : g.SeedData label names with
    | done g1 => exact absurd hnil ((SeedData_done g g1 label names h).1 w hw)
    | panic => rfl
    | noFuel => exact absurd h (SeedData_ne_noFuel g label names)

/-- C19: the read of `name[0]` in `SeedData` panics exactly when some name of the
corpus is the empty string or begins or ends with a byte matched by `\s`; for
every other corpus (interior runs of whitespace included) every split word is
non-empty and `SeedData` returns and stores the model. -/
theorem SeedData_panics_iff (g : generator) (label : GoString) (names : List GoString) :
    (g.SeedData label names = Run.panic ↔
      ∃ v ∈ names, v = [] ∨ startsWithSpace v = true ∨ endsWithSpace v = true) ∧
    ((¬ ∃ v ∈ names, v = [] ∨ startsWithSpace v = true ∨ endsWithSpace v = true) →
      (∀ w ∈ corpusWords names, w ≠ []) ∧
      ∃ c, g.SeedData label names = Run.done ⟨mapSet g.chains label c⟩ ∧
        mapGet (mapSet g.chains label c) label = some c) := by
  have key : (∃ w ∈ corpusWords names, w = []) ↔
      ∃ v ∈ names, v = [] ∨ startsWithSpace v = true ∨ endsWithSpace v = true := by
    constructor
    · rintro ⟨w, hw, hnil⟩
      subst hnil
      simp only [corpusWords, List.mem_flatMap] at hw
      obtain ⟨v, hv, hwv⟩ := hw
      exact ⟨v, hv, (splitSpace_empty_word v).1 hwv⟩
    · rintro ⟨v, hv, h⟩
      refine ⟨[], ?_, rfl⟩
      simp only [corpusWords, List.mem_flatMap]
      exact ⟨v, hv, (splitSpace_empty_word v).2 h⟩
  refine ⟨by rw [SeedData_panic_iff_empty_word, key], fun hno => ?_⟩
  have hwords : ∀ w ∈ corpusWords names, w ≠ [] := by
    intro w hw hnil
    exact hno (key.1 ⟨w, hw, hnil⟩)
  exact ⟨hwords, _, SeedData_eq g label names hwords, mapGet_mapSet_self _ _ _⟩

theorem mapGet_of_mem {κ ν : Type} [DecidableEq κ] (m : List (κ × ν)) (k : κ) (v : ν)
    (hnd : (mapKeys m).Nodup) (h : (k, v) ∈ m) : mapGet m k = some v := by
  induction m with
  | nil => simp at h
  | cons e m ih =>
    obtain ⟨k0, v0⟩ := e
    simp only [mapKeys, List.map_cons, List.nodup_cons] at hnd
    rcases List.mem_cons.1 h with h1 | h1
    · cases h1; simp [mapGet]
    · have hne : k0 ≠ k := by
        intro hk
        subst hk
        exact hnd.1 (List.mem_map_of_mem Prod.fst h1)
      simp only [mapGet, hne, if_false]
      exact ih hnd.2 h1

theorem MapOK_nil : MapOK [] := by
  refine ⟨by simp [mapKeys], fun k bag h => ?_⟩
  simp at h

theorem MapOK_increment (c : chain) (key : GoString) (tok : Token) (hc : MapOK c) :
    MapOK (chain.increment c key tok) := by
  rw [increment_eq]
  refine ⟨mapKeys_mapSet_nodup _ _ _ hc.1, fun k bag hmem => ?_⟩
  rcases mem_mapSet _ _ _ _ hmem with h | h
  · exact hc.2 k bag h
  · simp only [Prod.mk.injEq] at h
    obtain ⟨_, hbag⟩ := h
    subst hbag
    apply mapKeys_mapSet_nodup
    cases hget : mapGet c key with
    | none => simp [mapKeys]
    | some v => exact hc.2 key v (mapGet_mem c key v hget)

theorem MapOK_replay : ∀ (evs : List (GoString × Token)) (c : chain), MapOK c →
    MapOK (replay c evs) := by
  intro evs
  induction evs with
  | nil => intro c hc; exact hc
  | cons e evs ih =>
    intro c hc
    rw [replay_cons]
    exact ih _ (MapOK_increment c e.1 e.2 hc)

/-- Two maps with the same lookups hold the same entries, up to order. -/
theorem perm_of_mapGet_eq {κ ν : Type} [DecidableEq κ] (m1 m2 : List (κ × ν))
    (h1 : (mapKeys m1).Nodup) (h2 : (mapKeys m2).Nodup)
    (h : ∀ k, mapGet m1 k = mapGet m2 k) : m1.Perm m2 := by
  rw [List.perm_ext_iff_of_nodup (List.Nodup.of_map Prod.fst h1) (List.Nodup.of_map Prod.fst h2)]
  intro e
  obtain ⟨k, v⟩ := e
  constructor
  · intro hm
    exact mapGet_mem m2 k v (by rw [← h k]; exact mapGet_of_mem m1 k v h1 hm)
  · intro hm
    exact mapGet_mem m1 k v (by rw [h k]; exact mapGet_of_mem m2 k v h2 hm)

theorem count_perm {evs1 evs2 : List (GoString × Token)} (h : evs1.Perm evs2)
    (e : GoString × Token) : evs1.count e = evs2.count e :=
  h.countP_eq _

theorem weightSum_scaleBag_perm (b1 b2 : Bag) (h : b1.Perm b2) :
    weightSum (scaleBag b1) = weightSum (scaleBag b2) :=
  weightSum_perm (h.map _)

theorem weight_tableLen_int (c : chain) (n : Int) :
    chain.weight (chain.scale c) kTableLen (Token.int n) = none := by
  unfold chain.weight
  rw [scale_get_tableLen]
  simp only [Option.some_bind]
  cases h : mapGet (List.map (fun kv => (Token.str kv.1, weightSum (scaleBag kv.2))) c)
      (Token.int n) with
  | none => rfl
  | some v =>
    obtain ⟨k, hk, _⟩ := tableLen_keys c (Token.int n) (by rw [h]; rfl)
    cases hk

theorem weight_tableLen_str (c : chain) (k : GoString) :
    chain.weight (chain.scale c) kTableLen (Token.str k)
      = (mapGet c k).map (fun v => weightSum (scaleBag v)) := by
  unfold chain.weight
  rw [scale_get_tableLen]
  simp only [Option.some_bind]
  exact tableLen_get c k

/-- Chains learnt from scratch out of two permutations of the same increments have the
same bags up to order. -/
theorem replay_perm (evs1 evs2 : List (GoString × Token)) (h : evs1.Perm evs2) (k : GoString) :
    (mapGet (replay [] evs1) k = none ∧ mapGet (replay [] evs2) k = none) ∨
    ∃ b1 b2, mapGet (replay [] evs1) k = some b1 ∧ mapGet (replay [] evs2) k = some b2 ∧
      b1.Perm b2 := by
  have hsome : (mapGet (replay [] evs1) k).isSome ↔ (mapGet (replay [] evs2) k).isSome := by
    rw [replay_get_isSome, replay_get_isSome, (h.map Prod.fst).mem_iff]
  have hw : ∀ t, chain.weight (replay [] evs1) k t = chain.weight (replay [] evs2) k t := by
    intro t
    rw [weight_replay_nil, weight_replay_nil, count_perm h (k, t)]
  cases h1 : mapGet (replay [] evs1) k with
  | none =>
    cases h2 : mapGet (replay [] evs2) k with
    | none => exact Or.inl ⟨rfl, rfl⟩
    | some b2 => rw [h1, h2] at hsome; simp at hsome
  | some b1 =>
    cases h2 : mapGet (replay [] evs2) k with
    | none => rw [h1, h2] at hsome; simp at hsome
    | some b2 =>
      refine Or.inr ⟨b1, b2, rfl, rfl, ?_⟩
      apply perm_of_mapGet_eq
      · exact (MapOK_replay evs1 [] MapOK_nil).2 k b1 (mapGet_mem _ k b1 h1)
      · exact (MapOK_replay evs2 [] MapOK_nil).2 k b2 (mapGet_mem _ k b2 h2)
      · intro t
        have := hw t
        simp only [chain.weight, h1, h2, Option.some_bind] at this
        exact this

/-- C11: order independence of learning.  For every corpus with non-empty words
and every permutation of it, `SeedData` returns on both and the two stored
models are the same maps: a key has a bag in one exactly when it has one in the
other, every token has the same scaled weight under every key (the totals under
`"table_len"` included), and corresponding bags hold the same entries up to the
order of the association list. -/
theorem SeedData_order_independent (g : generator) (label : GoString)
    (names1 names2 : List GoString) (hperm : names1.Perm names2)
    (hwords : ∀ w ∈ corpusWords names1, w ≠ []) :
    ∃ c1 c2, g.SeedData label names1 = Run.done ⟨mapSet g.chains label c1⟩ ∧
      g.SeedData label names2 = Run.done ⟨mapSet g.chains label c2⟩ ∧
      (∀ key, (mapGet c1 key).isSome = (mapGet c2 key).isSome) ∧
      (∀ key token, chain.weight c1 key token = chain.weight c2 key token) ∧
      (∀ key, chain.tableLen c1 key = chain.tableLen c2 key) ∧
      (∀ key b1 b2, key ≠ kTableLen → mapGet c1 key = some b1 → mapGet c2 key = some b2 →
        b1.Perm b2) := by
  have hwords2 : ∀ w ∈ corpusWords names2, w ≠ [] := by
    intro w hw
    exact hwords w ((hperm.flatMap_right splitSpace).mem_iff.2 hw)
  have hev : (corpusEvents names1).Perm (corpusEvents names2) := hperm.flatMap_right nameEvents
  have hweight : ∀ key token,
      chain.weight (chain.scale (replay [] (corpusEvents names1))) key token
        = chain.weight (chain.scale (replay [] (corpusEvents names2))) key token := by
    intro key token
    by_cases hk : key = kTableLen
    · subst hk
      cases token with
      | int n => rw [weight_tableLen_int, weight_tableLen_int]
      | str k =>
        rw [weight_tableLen_str, weight_tableLen_str]
        rcases replay_perm _ _ hev k with ⟨h1, h2⟩ | ⟨b1, b2, h1, h2, hb⟩
        · rw [h1, h2]
        · rw [h1, h2]
          simp only [Option.map_some', Option.some.injEq]
          exact weightSum_scaleBag_perm b1 b2 hb
    · rw [weight_scale _ _ _ hk, weight_scale _ _ _ hk, weight_replay_nil, weight_replay_nil,
        count_perm hev (key, token)]
  refine ⟨_, _, SeedData_eq g label names1 hwords, SeedData_eq g label names2 hwords2, ?_,
    hweight, ?_, ?_⟩
  · intro key
    by_cases hk : key = kTableLen
    · subst hk
      rw [scale_get_tableLen, scale_get_tableLen]
      rfl
    · rw [scale_get _ _ hk, scale_get _ _ hk]
      rcases replay_perm _ _ hev key with ⟨h1, h2⟩ | ⟨b1, b2, h1, h2, _⟩
      · rw [h1, h2]
      · rw [h1, h2]; rfl
  · intro key
    have := hweight kTableLen (Token.str key)
    simp only [chain.weight] at this
    simp only [chain.tableLen, this]
  · intro key b1 b2 hk h1 h2
    rw [scale_get _ _ hk] at h1 h2
    rcases replay_perm _ _ hev key with ⟨e1, e2⟩ | ⟨a1, a2, e1, e2, hb⟩
    · rw [e1] at h1; simp at h1
    · rw [e1] at h1
      rw [e2] at h2
      simp only [Option.map_some', Option.some.injEq] at h1 h2
      subst h1; subst h2
      exact hb.map _

/-- Witness for C11: the corpus `Aa`, `Ab`, `Ba` and its reversal. -/
theorem SeedData_order_independent_witness :
    ∃ c1 c2, New.SeedData (goString "test") [goString "Aa", goString "Ab", goString "Ba"]
        = Run.done ⟨mapSet New.chains (goString "test") c1⟩ ∧
      New.SeedData (goString "test") [goString "Ba", goString "Ab", goString "Aa"]
        = Run.done ⟨mapSet New.chains (goString "test") c2⟩ ∧
      (∀ key, (mapGet c1 key).isSome = (mapGet c2 key).isSome) ∧
      (∀ key token, chain.weight c1 key token = chain.weight c2 key token) ∧
      (∀ key, chain.tableLen c1 key = chain.tableLen c2 key) ∧
      (∀ key b1 b2, key ≠ kTableLen → mapGet c1 key = some b1 → mapGet c2 key = some b2 →
        b1.Perm b2) :=
  SeedData_order_independent New (goString "test") [goString "Aa", goString "Ab", goString "Ba"]
    [goString "Ba", goString "Ab", goString "Aa"]
    (List.reverse_perm [goString "Ba", goString "Ab", goString "Aa"]) (by decide)

theorem EntriesFrom_increment (evs : List (GoString × Token)) (c : chain) (key : GoString)
    (tok : Token) (hc : EntriesFrom evs c) (he : (key, tok) ∈ evs) :
    EntriesFrom evs (chain.increment c key tok) := by
  intro k bag hmem tw htw
  rw [increment_eq] at hmem
  rcases mem_mapSet _ _ _ _ hmem with h | h
  · exact hc k bag h tw htw
  · simp only [Prod.mk.injEq] at h
    obtain ⟨hk, hbag⟩ := h
    subst hk; subst hbag
    rcases mem_mapSet _ _ _ _ htw with h1 | h1
    · cases hget : mapGet c k with
      | none => rw [hget] at h1; simp at h1
      | some v =>
        rw [hget] at h1
        exact hc k v (mapGet_mem c k v hget) tw h1
    · subst h1
      exact he

theorem EntriesFrom_replay (evs : List (GoString × Token)) :
    ∀ (es : List (GoString × Token)) (c : chain), EntriesFrom evs c → (∀ e ∈ es, e ∈ evs) →
    EntriesFrom evs (replay c es) := by
  intro es
  induction es with
  | nil => intro c hc _; exact hc
  | cons e es ih =>
    intro c hc h
    rw [replay_cons]
    exact ih _ (EntriesFrom_increment evs c e.1 e.2 hc (h e (List.mem_cons_self _ _)))
      (fun e1 he1 => h e1 (List.mem_cons_of_mem _ he1))

/-- Every token of a bag of a built model was counted by an increment of the corpus. -/
theorem built_entries (evs : List (GoString × Token)) (k : GoString) (bag : Bag)
    (hk : k ≠ kTableLen) (h : mapGet (chain.scale (replay [] evs)) k = some bag) :
    ∀ tw ∈ bag, (k, tw.1) ∈ evs := by
  have hfrom : EntriesFrom evs (replay [] evs) :=
    EntriesFrom_replay evs evs [] (fun k bag hm => by simp at hm) (fun e he => he)
  rw [scale_get _ k hk] at h
  cases hraw : mapGet (replay [] evs) k with
  | none => rw [hraw] at h; simp at h
  | some v =>
    rw [hraw] at h
    simp only [Option.map_some', Option.some.injEq] at h
    subst h
    intro tw htw
    simp only [scaleBag, List.mem_map] at htw
    obtain ⟨tc, htc, heq⟩ := htw
    rw [← heq]
    exact hfrom k v (mapGet_mem _ k v hraw) tc htc

/-- On a ready built model a valid draw returns the placeholder (no bag) or a token that
the corpus counted under that key. -/
theorem built_select (evs : List (GoString × Token))
    (hc : chain.Ready (chain.scale (replay [] evs))) (k : GoString) (hk : k ≠ kTableLen)
    (d : Draw) (hd : d.Valid) :
    (mapGet (chain.scale (replay [] evs)) k = none ∧
      chain.selectLink (chain.scale (replay [] evs)) k d = sentinel) ∨
    (k, chain.selectLink (chain.scale (replay [] evs)) k d) ∈ evs := by
  cases hget : mapGet (chain.scale (replay [] evs)) k with
  | none => exact Or.inl ⟨rfl, selectLink_absent _ k d hd hget⟩
  | some bag =>
    obtain ⟨⟨w, hw⟩, _⟩ := Ready_select_mem _ hc k hk bag hget d hd
    exact Or.inr (built_entries evs k bag hk hget _ hw)

theorem pairEvents_tokens : ∀ (rs : List Rune) (lastChar : Rune) (e : GoString × Token),
    e ∈ pairEvents lastChar rs →
    ∃ p ∈ adjacentPairs (lastChar :: rs), e = (encodeRune p.1, Token.str (encodeRune p.2)) := by
  intro rs
  induction rs with
  | nil => intro _ e he; simp [pairEvents] at he
  | cons r rs ih =>
    intro lastChar e he
    simp only [pairEvents, List.mem_cons] at he
    rcases he with h | h
    · exact ⟨(lastChar, r), by simp [adjacentPairs], h⟩
    · obtain ⟨p, hp, hep⟩ := ih r e h
      exact ⟨p, by simp [adjacentPairs, hp], hep⟩

theorem corpusEvents_parts (names : List GoString) (n : Int)
    (h : (kParts, Token.int n) ∈ corpusEvents names) :
    ∃ v ∈ names, n = ((splitSpace v).length : Int) := by
  simp only [corpusEvents, List.mem_flatMap, nameEvents, List.mem_cons] at h
  obtain ⟨v, hv, h1 | ⟨w, _, hw⟩⟩ := h
  · simp only [Prod.mk.injEq, Token.int.injEq, true_and] at h1
    exact ⟨v, hv, h1⟩
  · exfalso
    cases w with
    | nil => simp [wordEvents] at hw
    | cons b0 tail =>
      simp only [wordEvents, List.mem_cons] at hw
      rcases hw with h2 | h2 | h2
      · have : kParts ≠ kNameLen := by decide
        exact this (congrArg Prod.fst h2)
      · have : kParts ≠ kInitial := by decide
        exact this (congrArg Prod.fst h2)
      · have h3 : kParts.length ≤ 4 := pairEvents_key_length _ _ _ h2
        revert h3
        decide

theorem corpusEvents_nameLen (names : List GoString) (n : Int)
    (h : (kNameLen, Token.int n) ∈ corpusEvents names) :
    ∃ w ∈ corpusWords names, n = (w.length : Int) := by
  simp only [corpusEvents, List.mem_flatMap, nameEvents, List.mem_cons] at h
  obtain ⟨v, hv, h1 | ⟨w, hwv, hw⟩⟩ := h
  · exfalso
    have : kNameLen ≠ kParts := by decide
    exact this (congrArg Prod.fst h1)
  · cases w with
    | nil => simp [wordEvents] at hw
    | cons b0 tail =>
      simp only [wordEvents, List.mem_cons] at hw
      rcases hw with h2 | h2 | h2
      · simp only [Prod.mk.injEq, Token.int.injEq, true_and] at h2
        refine ⟨b0 :: tail, ?_, h2⟩
        simp only [corpusWords, List.mem_flatMap]
        exact ⟨v, hv, hwv⟩
      · cases h2
      · obtain ⟨p, _, hp⟩ := pairEvents_tokens _ _ _ h2
        have h3 := congrArg Prod.snd hp
        cases h3

theorem le_foldr_max : ∀ (l : List Nat) (x : Nat), x ∈ l → x ≤ l.foldr max 0 := by
  intro l
  induction l with
  | nil => intro x hx; simp at hx
  | cons a l ih =>
    intro x hx
    simp only [List.foldr_cons]
    rcases List.mem_cons.1 hx with h | h
    · subst h; exact Nat.le_max_left _ _
    · exact Nat.le_trans (ih x h) (Nat.le_max_right _ _)

/-- An invariant of the words collected by the loop over the parts of a name: if every word
the word loop can return satisfies `P`, so does every word of the result. -/
theorem namesLoop_inv (c : chain) (rs : Nat → Draw) (fuel : Nat) (P : Int × GoString → Prop)
    (hstep : ∀ pos n s name pos1, chain.selectLink c kNameLen (rs pos) = Token.int n →
      chain.selectLink c kInitial (rs (pos + 1)) = Token.str s →
      wordLoop c rs n fuel (pos + 2) s s = Run.done (name, pos1) → P (n, name)) :
    ∀ (todo pos : Nat) (acc : List (Int × GoString)), (∀ tw ∈ acc, P tw) →
    ∀ ws, namesLoop c rs fuel todo pos acc = Run.done ws → ∀ tw ∈ ws, P tw := by
  intro todo
  induction todo with
  | zero =>
    intro pos acc hacc ws h
    simp only [namesLoop, Run.done.injEq] at h
    subst h
    exact hacc
  | succ todo ih =>
    intro pos acc hacc ws h
    cases h1 : chain.selectLink c kNameLen (rs pos) with
    | str s => rw [namesLoop_succ_str c rs fuel todo pos acc s h1] at h; cases h
    | int n =>
      cases h2 : chain.selectLink c kInitial (rs (pos + 1)) with
      | int m =>
        rw [namesLoop, h1] at h
        simp only [h2] at h
        cases h
      | str s =>
        rw [namesLoop_succ_int_str c rs fuel todo pos acc n s h1 h2] at h
        cases hw : wordLoop c rs n fuel (pos + 2) s s with
        | done r =>
          obtain ⟨name, pos1⟩ := r
          rw [hw] at h
          simp only at h
          apply ih pos1 (acc ++ [(n, name)]) _ ws h
          intro tw htw
          rcases List.mem_append.1 htw with h3 | h3
          · exact hacc tw h3
          · simp only [List.mem_singleton] at h3
            subst h3
            exact hstep pos n s name pos1 h1 h2 hw
        | panic => rw [hw] at h; cases h
        | noFuel => rw [hw] at h; cases h

theorem namesLoop_length (c : chain) (rs : Nat → Draw) (fuel : Nat) :
    ∀ (todo pos : Nat) (acc ws : List (Int × GoString)),
    namesLoop c rs fuel todo pos acc = Run.done ws → ws.length = acc.length + todo := by
  intro todo
  induction todo with
  | zero =>
    intro pos acc ws h
    simp only [namesLoop, Run.done.injEq] at h
    subst h
    rfl
  | succ todo ih =>
    intro pos acc ws h
    cases h1 : chain.selectLink c kNameLen (rs pos) with
    | str s => rw [namesLoop_succ_str c rs fuel todo pos acc s h1] at h; cases h
    | int n =>
      cases h2 : chain.selectLink c kInitial (rs (pos + 1)) with
      | int m =>
        rw [namesLoop, h1] at h
        simp only [h2] at h
        cases h
      | str s =>
        rw [namesLoop_succ_int_str c rs fuel todo pos acc n s h1 h2] at h
        cases hw : wordLoop c rs n fuel (pos + 2) s s with
        | done r =>
          obtain ⟨name, pos1⟩ := r
          rw [hw] at h
          simp only at h
          rw [ih pos1 _ ws h]
          simp
          omega
        | panic => rw [hw] at h; cases h
        | noFuel => rw [hw] at h; cases h

theorem GenerateName_of_words (g : generator) (label : GoString) (c : chain) (rs : Nat → Draw)
    (fuel : Nat) (ws : List (Int × GoString)) (hget : mapGet g.chains label = some c)
    (hws : chain.markovWords c rs fuel = Run.done ws) :
    g.GenerateName label rs fuel = Run.done (joinSpace (ws.map Prod.snd), none) := by
  unfold generator.GenerateName
  simp only [hget, chain.markovName, hws]

/-- The generated name of a built ASCII model returns once enough iterations are allowed. -/
theorem built_returns (g : generator) (label : GoString) (names : List GoString)
    (hne : names ≠ []) (hascii : ∀ v ∈ names, ∀ b ∈ v, b < 128)
    (hwords : ∀ w ∈ corpusWords names, w ≠ []) (rs : Nat → Draw) (hrs : ∀ i, (rs i).Valid) :
    ∃ N, ∀ fuel, N ≤ fuel → ∃ ws,
      chain.markovWords (chain.scale (replay [] (corpusEvents names))) rs fuel = Run.done ws ∧
      generator.GenerateName
          ⟨mapSet g.chains label (chain.scale (replay [] (corpusEvents names)))⟩ label rs fuel
        = Run.done (joinSpace (ws.map Prod.snd), none) := by
  have hc := Ready_built names hascii
  obtain ⟨⟨bagP, hP⟩, ⟨bagN, hN⟩⟩ := built_has_bags names hne hwords
  obtain ⟨N, hN1⟩ := markovWords_returns _ hc rs hrs bagP bagN hP hN
  refine ⟨N, fun fuel hfuel => ?_⟩
  obtain ⟨ws, hws⟩ := hN1 fuel hfuel
  exact ⟨ws, hws, GenerateName_of_words _ label _ rs fuel ws (mapGet_mapSet_self _ _ _) hws⟩

theorem built_word_count (names : List GoString) (hascii : ∀ v ∈ names, ∀ b ∈ v, b < 128)
    (rs : Nat → Draw) (hrs : ∀ i, (rs i).Valid) (fuel : Nat) (ws : List (Int × GoString))
    (h : chain.markovWords (chain.scale (replay [] (corpusEvents names))) rs fuel = Run.done ws) :
    ∃ v ∈ names, ws.length = (splitSpace v).length := by
  have hc := Ready_built names hascii
  unfold chain.markovWords at h
  cases hp : chain.selectLink (chain.scale (replay [] (corpusEvents names))) kParts (rs 0) with
  | str s => rw [hp] at h; cases h
  | int parts =>
    rw [hp] at h
    simp only at h
    have hlen := namesLoop_length _ rs fuel _ 1 [] ws h
    rcases built_select (corpusEvents names) hc kParts (by decide) (rs 0) (hrs 0) with
      ⟨_, hs⟩ | hmem
    · rw [hp] at hs; cases hs
    · rw [hp] at hmem
      obtain ⟨v, hv, hn⟩ := corpusEvents_parts names parts hmem
      refine ⟨v, hv, ?_⟩
      rw [hlen, hn]
      simp

theorem built_targets (names : List GoString) (hascii : ∀ v ∈ names, ∀ b ∈ v, b < 128)
    (rs : Nat → Draw) (hrs : ∀ i, (rs i).Valid) (fuel : Nat) (ws : List (Int × GoString))
    (h : chain.markovWords (chain.scale (replay [] (corpusEvents names))) rs fuel = Run.done ws) :
    ∀ tw ∈ ws, ∃ w ∈ corpusWords names, tw.1 = (w.length : Int) := by
  have hc := Ready_built names hascii
  unfold chain.markovWords at h
  cases hp : chain.selectLink (chain.scale (replay [] (corpusEvents names))) kParts (rs 0) with
  | str s => rw [hp] at h; cases h
  | int parts =>
    rw [hp] at h
    simp only at h
    apply namesLoop_inv _ rs fuel (fun tw => ∃ w ∈ corpusWords names, tw.1 = (w.length : Int))
      _ _ 1 [] (fun tw htw => by simp at htw) ws h
    intro pos n s name pos1 h1 _ _
    rcases built_select (corpusEvents names) hc kNameLen (by decide) (rs pos) (hrs pos) with
      ⟨_, hs⟩ | hmem
    · rw [h1] at hs; cases hs
    · rw [h1] at hmem
      exact corpusEvents_nameLen names n hmem

/-- C17 (as amended): bounded generation for ASCII corpora.  For every model
built by `SeedData` from a non-empty corpus of ASCII names with non-empty words
and every sequence of valid draws, name generation terminates (it returns as
soon as enough loop iterations are allowed), the generated name has at most as
many words as the seed name with the most words, and no generated word is
longer, in bytes or in characters, than the longest word of the corpus. -/
theorem generation_bounded_ascii (g : generator) (label : GoString) (names : List GoString)
    (hne : names ≠ []) (hascii : ∀ v ∈ names, ∀ b ∈ v, b < 128)
    (hwords : ∀ w ∈ corpusWords names, w ≠ []) (rs : Nat → Draw) (hrs : ∀ i, (rs i).Valid) :
    ∃ c, g.SeedData label names = Run.done ⟨mapSet g.chains label c⟩ ∧
      mapGet (mapSet g.chains label c) label = some c ∧
      (∃ N, ∀ fuel, N ≤ fuel → ∃ ws, chain.markovWords c rs fuel = Run.done ws ∧
        generator.GenerateName ⟨mapSet g.chains label c⟩ label rs fuel
          = Run.done (joinSpace (ws.map Prod.snd), none)) ∧
      (∀ fuel ws, chain.markovWords c rs fuel = Run.done ws →
        ws.length ≤ maxWordCount names ∧
        ∀ tw ∈ ws, tw.2.length ≤ maxWordLength names ∧
          lengthInChars tw.2 ≤ maxWordChars names) := by
  have hc := Ready_built names hascii
  refine ⟨_, SeedData_eq g label names hwords, mapGet_mapSet_self _ _ _,
    built_returns g label names hne hascii hwords rs hrs, ?_⟩
  intro fuel ws hws
  constructor
  · obtain ⟨v, hv, hlen⟩ := built_word_count names hascii rs hrs fuel ws hws
    rw [hlen]
    exact le_foldr_max _ _ (List.mem_map_of_mem (fun v => (splitSpace v).length) hv)
  · intro tw htw
    obtain ⟨w, hw, htarget⟩ := built_targets names hascii rs hrs fuel ws hws tw htw
    have hex := markovWords_exact _ hc rs hrs fuel ws hws tw htw
    have hbytes : tw.2.length = w.length := by
      have := hex.1
      rw [htarget] at this
      exact_mod_cast this
    have hwascii : ∀ b ∈ w, b < 128 := corpusWords_ascii names hascii w hw
    constructor
    · rw [hbytes]
      exact le_foldr_max _ _ (List.mem_map_of_mem List.length hw)
    · have h1 : lengthInChars tw.2 = lengthInChars w := by
        unfold lengthInChars
        rw [runes_ascii tw.2 hex.2, runes_ascii w hwascii, hbytes]
      rw [h1]
      exact le_foldr_max _ _ (List.mem_map_of_mem lengthInChars hw)

/-- Witness for C17 (as amended): the corpus `Aa`, `Ab`, `Ba`, first draws. -/
theorem generation_bounded_ascii_witness :
    ∃ c, New.SeedData (goString "test") [goString "Aa", goString "Ab", goString "Ba"]
        = Run.done ⟨mapSet New.chains (goString "test") c⟩ ∧
      mapGet (mapSet New.chains (goString "test") c) (goString "test") = some c ∧
      (∃ N, ∀ fuel, N ≤ fuel → ∃ ws, chain.markovWords c firstDraws fuel = Run.done ws ∧
        generator.GenerateName ⟨mapSet New.chains (goString "test") c⟩ (goString "test")
          firstDraws fuel = Run.done (joinSpace (ws.map Prod.snd), none)) ∧
      (∀ fuel ws, chain.markovWords c firstDraws fuel = Run.done ws →
        ws.length ≤ maxWordCount [goString "Aa", goString "Ab", goString "Ba"] ∧
        ∀ tw ∈ ws, tw.2.length ≤ maxWordLength [goString "Aa", goString "Ab", goString "Ba"] ∧
          lengthInChars tw.2 ≤ maxWordChars [goString "Aa", goString "Ab", goString "Ba"]) :=
  generation_bounded_ascii New (goString "test") [goString "Aa", goString "Ab", goString "Ba"]
    (by decide) (by decide) (by decide) firstDraws firstDraws_valid

theorem longWordDraws_valid (i : Nat) : (longWordDraws i).Valid := by
  unfold longWordDraws
  split
  · exact ⟨rfl, fun n h => Nat.sub_lt h Nat.one_pos, fun b => List.Perm.refl b⟩
  · exact ⟨rfl, fun _ h => h, fun b => List.Perm.refl b⟩

/-- C17, counterexample: seeded with `aéé`, `ab`, `ba` (longest word: five bytes,
three characters), under valid draws `GenerateName` returns the single word
`babaé`, which has six bytes and five characters. -/
theorem generated_word_too_long :
    (∀ i, (longWordDraws i).Valid) ∧
    ∃ c, New.SeedData (goString "t") [goString "aéé", goString "ab", goString "ba"]
        = Run.done ⟨[(goString "t", c)]⟩ ∧
      generator.GenerateName ⟨[(goString "t", c)]⟩ (goString "t") longWordDraws 10
        = Run.done (goString "babaé", none) ∧
      maxWordLength [goString "aéé", goString "ab", goString "ba"] = 5 ∧
      (goString "babaé").length = 6 ∧
      maxWordChars [goString "aéé", goString "ab", goString "ba"] = 3 ∧
      lengthInChars (goString "babaé") = 5 :=
  ⟨longWordDraws_valid, _, rfl, by decide, by decide, by decide, by decide, by decide⟩

theorem adjacentPairs_append_singleton : ∀ (name : List Rune) (b y : Rune),
    name.getLast? = some b → adjacentPairs (name ++ [y]) = adjacentPairs name ++ [(b, y)] := by
  intro name
  induction name with
  | nil => intro b y h; simp at h
  | cons a rest ih =>
    intro b y h
    cases rest with
    | nil =>
      simp only [List.getLast?_singleton, Option.some.injEq] at h
      subst h
      simp [adjacentPairs]
    | cons a1 rest1 =>
      rw [List.getLast?_cons_cons] at h
      have h1 : adjacentPairs (a1 :: (rest1 ++ [y])) = adjacentPairs (a1 :: rest1) ++ [(b, y)] :=
        ih b y h
      have e1 : adjacentPairs (a :: a1 :: (rest1 ++ [y]))
          = (a, a1) :: adjacentPairs (a1 :: (rest1 ++ [y])) := rfl
      have e2 : adjacentPairs (a :: a1 :: rest1) = (a, a1) :: adjacentPairs (a1 :: rest1) := rfl
      show adjacentPairs (a :: a1 :: (rest1 ++ [y])) = adjacentPairs (a :: a1 :: rest1) ++ [(b, y)]
      rw [e1, e2, h1]
      rfl

theorem adjacentPairs_mem : ∀ (l : List Rune) (p : Rune × Rune), p ∈ adjacentPairs l →
    p.1 ∈ l ∧ p.2 ∈ l := by
  intro l
  induction l with
  | nil => intro p hp; simp [adjacentPairs] at hp
  | cons a rest ih =>
    intro p hp
    cases rest with
    | nil => simp [adjacentPairs] at hp
    | cons a1 rest1 =>
      simp only [adjacentPairs, List.mem_cons] at hp
      rcases hp with h | h
      · subst h; simp
      · obtain ⟨h1, h2⟩ := ih p h
        exact ⟨List.mem_cons_of_mem _ h1, List.mem_cons_of_mem _ h2⟩

theorem single_ne_initial (b : Nat) : [b] ≠ kInitial := by
  intro h
  have h1 := congrArg List.length h
  have h2 : kInitial.length = 7 := by decide
  rw [h2] at h1
  simp at h1

theorem corpusEvents_initial (names : List GoString) (s : GoString)
    (h : (kInitial, Token.str s) ∈ corpusEvents names) :
    ∃ w ∈ corpusWords names, ∃ b0 tail, w = b0 :: tail ∧ s = encodeRune b0 := by
  simp only [corpusEvents, List.mem_flatMap, nameEvents, List.mem_cons] at h
  obtain ⟨v, hv, h1 | ⟨w, hwv, hw⟩⟩ := h
  · have h3 := congrArg Prod.snd h1
    cases h3
  · cases w with
    | nil => simp [wordEvents] at hw
    | cons b0 tail =>
      simp only [wordEvents, List.mem_cons] at hw
      rcases hw with h2 | h2 | h2
      · have h3 := congrArg Prod.snd h2
        cases h3
      · simp only [Prod.mk.injEq, Token.str.injEq, true_and] at h2
        refine ⟨b0 :: tail, ?_, b0, tail, rfl, h2⟩
        simp only [corpusWords, List.mem_flatMap]
        exact ⟨v, hv, hwv⟩
      · exfalso
        have h3 : kInitial.length ≤ 4 := pairEvents_key_length _ _ _ h2
        revert h3
        decide

theorem corpusEvents_pair (names : List GoString) (b : Nat) (s : GoString)
    (h : ([b], Token.str s) ∈ corpusEvents names) :
    ∃ w ∈ corpusWords names, ∃ b0 tail, w = b0 :: tail ∧
      ∃ p ∈ adjacentPairs (b0 :: runes tail), [b] = encodeRune p.1 ∧ s = encodeRune p.2 := by
  simp only [corpusEvents, List.mem_flatMap, nameEvents, List.mem_cons] at h
  obtain ⟨v, hv, h1 | ⟨w, hwv, hw⟩⟩ := h
  · have h3 := congrArg Prod.snd h1
    cases h3
  · cases w with
    | nil => simp [wordEvents] at hw
    | cons b0 tail =>
      simp only [wordEvents, List.mem_cons] at hw
      rcases hw with h2 | h2 | h2
      · have h3 := congrArg Prod.snd h2
        cases h3
      · exact absurd (congrArg Prod.fst h2) (single_ne_initial b)
      · obtain ⟨p, hp, hep⟩ := pairEvents_tokens _ _ _ h2
        simp only [Prod.mk.injEq, Token.str.injEq] at hep
        refine ⟨b0 :: tail, ?_, b0, tail, rfl, p, hp, hep.1, hep.2⟩
        simp only [corpusWords, List.mem_flatMap]
        exact ⟨v, hv, hwv⟩

theorem built_has_initial (names : List GoString) (hne : names ≠ [])
    (h : ∀ w ∈ corpusWords names, w ≠ []) :
    ∃ bag, mapGet (chain.scale (replay [] (corpusEvents names))) kInitial = some bag := by
  cases names with
  | nil => exact absurd rfl hne
  | cons v rest =>
    have hv : ∀ w ∈ splitSpace v, w ≠ [] := fun w hw =>
      h w (by simp [corpusWords]; exact Or.inl hw)
    have hsp : splitSpace v ≠ [] := splitAux_ne_nil v [] false
    have h1 : (mapGet (replay [] (corpusEvents (v :: rest))) kInitial).isSome := by
      rw [replay_get_isSome]
      right
      cases hs : splitSpace v with
      | nil => exact absurd hs hsp
      | cons w ws =>
        have hw : w ≠ [] := hv w (by rw [hs]; exact List.mem_cons_self _ _)
        cases w with
        | nil => exact absurd rfl hw
        | cons b0 tail => simp [corpusEvents, nameEvents, hs, wordEvents]
    rw [scale_get _ kInitial (by decide)]
    obtain ⟨bag, hbag⟩ := Option.isSome_iff_exists.1 h1
    exact ⟨scaleBag bag, by rw [hbag]; rfl⟩

/-- The word loop keeps the first character and only adds pairs allowed by `ok`. -/
theorem wordLoop_pairs (c : chain) (hc : chain.Ready c) (rs : Nat → Draw)
    (hrs : ∀ i, (rs i).Valid) (ok : Nat → Nat → Prop)
    (hstep : ∀ b y pos, chain.selectLink c [b] (rs pos) = Token.str [y] → ok b y)
    (target : Int) : ∀ (fuel pos : Nat) (name : GoString) (b : Nat),
    name.getLast? = some b → (∀ p ∈ adjacentPairs name, ok p.1 p.2) →
    ∀ r, wordLoop c rs target fuel pos name [b] = Run.done r →
      (∀ p ∈ adjacentPairs r.1, ok p.1 p.2) ∧ r.1.head? = name.head? := by
  intro fuel
  induction fuel with
  | zero =>
    intro pos name b _ hpairs r h
    by_cases hlt : (name.length : Int) < target
    · have h0 : wordLoop c rs target 0 pos name [b] = Run.noFuel := by
        rw [wordLoop]; simp [hlt]
      rw [h0] at h
      cases h
    · rw [wordLoop_done_of_not_lt _ _ _ _ _ _ _ hlt] at h
      cases h
      exact ⟨hpairs, rfl⟩
  | succ fuel ih =>
    intro pos name b hlast hpairs r h
    by_cases hlt : (name.length : Int) < target
    · obtain ⟨y, _, hsel⟩ := Ready_char c hc [b] (single_ne_parts b) (single_ne_nameLen b)
        (single_ne_tableLen b) (rs pos) (hrs pos)
      rw [wordLoop_step c rs target fuel pos name [b] [y] hlt hsel] at h
      have hlast1 : (name ++ [y]).getLast? = some y := by simp
      have hpairs1 : ∀ p ∈ adjacentPairs (name ++ [y]), ok p.1 p.2 := by
        intro p hp
        rw [adjacentPairs_append_singleton name b y hlast] at hp
        rcases List.mem_append.1 hp with h1 | h1
        · exact hpairs p h1
        · simp only [List.mem_singleton] at h1
          subst h1
          exact hstep b y pos hsel
      obtain ⟨i1, i2⟩ := ih (pos + 1) (name ++ [y]) y hlast1 hpairs1 r h
      refine ⟨i1, ?_⟩
      rw [i2]
      cases name with
      | nil => simp at hlast
      | cons a rest => rfl
    · rw [wordLoop_done_of_not_lt _ _ _ _ _ _ _ hlt] at h
      cases h
      exact ⟨hpairs, rfl⟩

/-- On a built ASCII model a successor drawn after `b` either follows `b` somewhere in the
corpus or is the placeholder. -/
theorem built_successor (names : List GoString) (hascii : ∀ v ∈ names, ∀ b ∈ v, b < 128)
    (rs : Nat → Draw) (hrs : ∀ i, (rs i).Valid) (b y pos : Nat)
    (h : chain.selectLink (chain.scale (replay [] (corpusEvents names))) [b] (rs pos)
      = Token.str [y]) :
    pairInCorpus names (b, y) ∨ y = 45 := by
  have hc := Ready_built names hascii
  rcases built_select (corpusEvents names) hc [b] (single_ne_tableLen b) (rs pos) (hrs pos) with
    ⟨_, hs⟩ | hmem
  · rw [h] at hs
    simp only [sentinel, Token.str.injEq, List.cons.injEq, and_true] at hs
    exact Or.inr hs
  · rw [h] at hmem
    obtain ⟨w, hw, b0, tail, hwb, p, hp, hk, hs⟩ := corpusEvents_pair names b [y] hmem
    have hwascii : ∀ x ∈ w, x < 128 := corpusWords_ascii names hascii w hw
    have htail : ∀ x ∈ tail, x < 128 := fun x hx => hwascii x (by rw [hwb]; exact List.mem_cons_of_mem _ hx)
    rw [runes_ascii tail htail, ← hwb] at hp
    obtain ⟨m1, m2⟩ := adjacentPairs_mem w p hp
    rw [encodeRune_ascii _ (hwascii _ m1)] at hk
    rw [encodeRune_ascii _ (hwascii _ m2)] at hs
    simp only [List.cons.injEq, and_true] at hk hs
    left
    refine ⟨w, hw, ?_⟩
    rw [runes_ascii w hwascii]
    have : p = (b, y) := by rw [hk, hs]
    rw [← this]
    exact hp

/-- On a built ASCII model of a non-empty corpus the initial character drawn for a word is
the first character of some corpus word. -/
theorem built_first (names : List GoString) (hne : names ≠ [])
    (hascii : ∀ v ∈ names, ∀ b ∈ v, b < 128) (hwords : ∀ w ∈ corpusWords names, w ≠ [])
    (d : Draw) (hd : d.Valid) (s : GoString)
    (h : chain.selectLink (chain.scale (replay [] (corpusEvents names))) kInitial d
      = Token.str s) :
    ∃ b, s = [b] ∧ b < 128 ∧ startsCorpusWord names b := by
  have hc := Ready_built names hascii
  obtain ⟨bag, hbag⟩ := built_has_initial names hne hwords
  rcases built_select (corpusEvents names) hc kInitial (by decide) d hd with ⟨hnone, _⟩ | hmem
  · rw [hbag] at hnone; cases hnone
  · rw [h] at hmem
    obtain ⟨w, hw, b0, tail, hwb, hs⟩ := corpusEvents_initial names s hmem
    have hwascii : ∀ x ∈ w, x < 128 := corpusWords_ascii names hascii w hw
    have hb0 : b0 < 128 := hwascii b0 (by rw [hwb]; exact List.mem_cons_self _ _)
    rw [encodeRune_ascii b0 hb0] at hs
    refine ⟨b0, hs, hb0, w, hw, ?_⟩
    rw [runes_ascii w hwascii, hwb]
    rfl

theorem built_sound (names : List GoString) (hne : names ≠ [])
    (hascii : ∀ v ∈ names, ∀ b ∈ v, b < 128) (hwords : ∀ w ∈ corpusWords names, w ≠ [])
    (rs : Nat → Draw) (hrs : ∀ i, (rs i).Valid) (fuel : Nat) (ws : List (Int × GoString))
    (h : chain.markovWords (chain.scale (replay [] (corpusEvents names))) rs fuel = Run.done ws) :
    ∀ tw ∈ ws, (∃ x, tw.2.head? = some x ∧ startsCorpusWord names x) ∧
      ∀ p ∈ adjacentPairs tw.2, pairInCorpus names p ∨ p.2 = 45 := by
  have hc := Ready_built names hascii
  unfold chain.markovWords at h
  cases hp : chain.selectLink (chain.scale (replay [] (corpusEvents names))) kParts (rs 0) with
  | str s => rw [hp] at h; cases h
  | int parts =>
    rw [hp] at h
    simp only at h
    apply namesLoop_inv _ rs fuel
      (fun tw => (∃ x, tw.2.head? = some x ∧ startsCorpusWord names x) ∧
        ∀ p ∈ adjacentPairs tw.2, pairInCorpus names p ∨ p.2 = 45)
      _ _ 1 [] (fun tw htw => by simp at htw) ws h
    intro pos n s name pos1 _ h2 hw
    obtain ⟨b, hs, _, hstart⟩ :=
      built_first names hne hascii hwords (rs (pos + 1)) (hrs (pos + 1)) s h2
    subst hs
    obtain ⟨i1, i2⟩ := wordLoop_pairs _ hc rs hrs (fun x y => pairInCorpus names (x, y) ∨ y = 45)
      (fun x y q hq => built_successor names hascii rs hrs x y q hq) n fuel (pos + 2) [b] b
      (by simp) (fun p hp => by simp [adjacentPairs] at hp) (name, pos1) hw
    exact ⟨⟨b, by rw [i2]; rfl, hstart⟩, fun p hp => i1 p hp⟩

/-- C20: Markov soundness of the output.  For every model built by `SeedData`
from a non-empty corpus of ASCII names with non-empty words and every sequence
of valid draws, generation returns once enough loop iterations are allowed, and
each word of a generated name starts with a character that is the first
character of some corpus word, while every adjacent pair `(x, y)` inside it
occurs as an adjacent pair in some corpus word or has `y` equal to the
placeholder `-`. -/
theorem markov_soundness (g : generator) (label : GoString) (names : List GoString)
    (hne : names ≠ []) (hascii : ∀ v ∈ names, ∀ b ∈ v, b < 128)
    (hwords : ∀ w ∈ corpusWords names, w ≠ []) (rs : Nat → Draw) (hrs : ∀ i, (rs i).Valid) :
    ∃ c, g.SeedData label names = Run.done ⟨mapSet g.chains label c⟩ ∧
      mapGet (mapSet g.chains label c) label = some c ∧
      (∃ N, ∀ fuel, N ≤ fuel → ∃ ws, chain.markovWords c rs fuel = Run.done ws ∧
        generator.GenerateName ⟨mapSet g.chains label c⟩ label rs fuel
          = Run.done (joinSpace (ws.map Prod.snd), none)) ∧
      (∀ fuel ws, chain.markovWords c rs fuel = Run.done ws →
        ∀ tw ∈ ws, MarkovSound names tw.2) := by
  have hc := Ready_built names hascii
  refine ⟨_, SeedData_eq g label names hwords, mapGet_mapSet_self _ _ _,
    built_returns g label names hne hascii hwords rs hrs, ?_⟩
  intro fuel ws hws tw htw
  have hex := markovWords_exact _ hc rs hrs fuel ws hws tw htw
  have hsound := built_sound names hne hascii hwords rs hrs fuel ws hws tw htw
  unfold MarkovSound
  rw [runes_ascii tw.2 hex.2]
  exact hsound

/-- Witness for C20: the corpus `Aa`, `Ab`, `Ba`, first draws. -/
theorem markov_soundness_witness :
    ∃ c, New.SeedData (goString "test") [goString "Aa", goString "Ab", goString "Ba"]
        = Run.done ⟨mapSet New.chains (goString "test") c⟩ ∧
      mapGet (mapSet New.chains (goString "test") c) (goString "test") = some c ∧
      (∃ N, ∀ fuel, N ≤ fuel → ∃ ws, chain.markovWords c firstDraws fuel = Run.done ws ∧
        generator.GenerateName ⟨mapSet New.chains (goString "test") c⟩ (goString "test")
          firstDraws fuel = Run.done (joinSpace (ws.map Prod.snd), none)) ∧
      (∀ fuel ws, chain.markovWords c firstDraws fuel = Run.done ws →
        ∀ tw ∈ ws, MarkovSound [goString "Aa", goString "Ab", goString "Ba"] tw.2) :=
  markov_soundness New (goString "test") [goString "Aa", goString "Ab", goString "Ba"]
    (by decide) (by decide) (by decide) firstDraws firstDraws_valid

/-- A weighted draw depends on the draw only through the index delivered for the stored
total of the key and the order in which the bag of the key is walked. -/
theorem selectLink_congr (c : chain) (key : GoString) (d1 d2 : Draw)
    (hidx : d1.idx (chain.tableLen c key) = d2.idx (chain.tableLen c key))
    (horder : d1.order ((mapGet c key).getD []) = d2.order ((mapGet c key).getD [])) :
    chain.selectLink c key d1 = chain.selectLink c key d2 := by
  unfold chain.selectLink
  rw [hidx, horder]

theorem wordLoop_zero_lt (c : chain) (rs : Nat → Draw) (nameLength : Int) (pos : Nat)
    (name lastChar : GoString) (h : (name.length : Int) < nameLength) :
    wordLoop c rs nameLength 0 pos name lastChar = Run.noFuel := by
  rw [wordLoop]
  simp [h]

theorem wordLoop_step_int (c : chain) (rs : Nat → Draw) (nameLength : Int) (fuel pos : Nat)
    (name lastChar : GoString) (n : Int) (h : (name.length : Int) < nameLength)
    (hsel : chain.selectLink c lastChar (rs pos) = Token.int n) :
    wordLoop c rs nameLength (fuel + 1) pos name lastChar = Run.panic := by
  rw [wordLoop]
  simp [h, hsel]

theorem namesLoop_succ_int_int (c : chain) (rs : Nat → Draw) (fuel todo pos : Nat)
    (names : List (Int × GoString)) (n m : Int)
    (h1 : chain.selectLink c kNameLen (rs pos) = Token.int n)
    (h2 : chain.selectLink c kInitial (rs (pos + 1)) = Token.int m) :
    namesLoop c rs fuel (todo + 1) pos names = Run.panic := by
  rw [namesLoop, h1]
  simp only [h2]

/-- The word loop gives the same outcome under two draw sources that make every draw on the
model return the same token. -/
theorem wordLoop_congr (c : chain) (rs1 rs2 : Nat → Draw)
    (hsel : ∀ i key, chain.selectLink c key (rs1 i) = chain.selectLink c key (rs2 i))
    (target : Int) : ∀ (fuel pos : Nat) (name lastChar : GoString),
    wordLoop c rs1 target fuel pos name lastChar = wordLoop c rs2 target fuel pos name lastChar := by
  intro fuel
  induction fuel with
  | zero =>
    intro pos name lastChar
    by_cases hlt : (name.length : Int) < target
    · rw [wordLoop_zero_lt c rs1 target pos name lastChar hlt,
        wordLoop_zero_lt c rs2 target pos name lastChar hlt]
    · rw [wordLoop_done_of_not_lt c rs1 target 0 pos name lastChar hlt,
        wordLoop_done_of_not_lt c rs2 target 0 pos name lastChar hlt]
  | succ fuel ih =>
    intro pos name lastChar
    by_cases hlt : (name.length : Int) < target
    · cases hs : chain.selectLink c lastChar (rs1 pos) with
      | str char =>
        rw [wordLoop_step c rs1 target fuel pos name lastChar char hlt hs,
          wordLoop_step c rs2 target fuel pos name lastChar char hlt
            (by rw [← hsel pos lastChar]; exact hs)]
        exact ih (pos + 1) (name ++ char) char
      | int n =>
        rw [wordLoop_step_int c rs1 target fuel pos name lastChar n hlt hs,
          wordLoop_step_int c rs2 target fuel pos name lastChar n hlt
            (by rw [← hsel pos lastChar]; exact hs)]
    · rw [wordLoop_done_of_not_lt c rs1 target (fuel + 1) pos name lastChar hlt,
        wordLoop_done_of_not_lt c rs2 target (fuel + 1) pos name lastChar hlt]

theorem namesLoop_congr (c : chain) (rs1 rs2 : Nat → Draw)
    (hsel : ∀ i key, chain.selectLink c key (rs1 i) = chain.selectLink c key (rs2 i))
    (fuel : Nat) : ∀ (todo pos : Nat) (acc : List (Int × GoString)),
    namesLoop c rs1 fuel todo pos acc = namesLoop c rs2 fuel todo pos acc := by
  intro todo
  induction todo with
  | zero => intro pos acc; simp [namesLoop]
  | succ todo ih =>
    intro pos acc
    cases h1 : chain.selectLink c kNameLen (rs1 pos) with
    | str s =>
      rw [namesLoop_succ_str c rs1 fuel todo pos acc s h1,
        namesLoop_succ_str c rs2 fuel todo pos acc s (by rw [← hsel pos kNameLen]; exact h1)]
    | int n =>
      have h1b : chain.selectLink c kNameLen (rs2 pos) = Token.int n := by
        rw [← hsel pos kNameLen]; exact h1
      cases h2 : chain.selectLink c kInitial (rs1 (pos + 1)) with
      | int m =>
        rw [namesLoop_succ_int_int c rs1 fuel todo pos acc n m h1 h2,
          namesLoop_succ_int_int c rs2 fuel todo pos acc n m h1b
            (by rw [← hsel (pos + 1) kInitial]; exact h2)]
      | str s =>
        rw [namesLoop_succ_int_str c rs1 fuel todo pos acc n s h1 h2,
          namesLoop_succ_int_str c rs2 fuel todo pos acc n s h1b
            (by rw [← hsel (pos + 1) kInitial]; exact h2),
          wordLoop_congr c rs1 rs2 hsel n fuel (pos + 2) s s]
        cases wordLoop c rs2 n fuel (pos + 2) s s with
        | done r => exact ih r.2 _
        | panic => rfl
        | noFuel => rfl

theorem markovName_congr (c : chain) (rs1 rs2 : Nat → Draw)
    (hsel : ∀ i key, chain.selectLink c key (rs1 i) = chain.selectLink c key (rs2 i))
    (fuel : Nat) : chain.markovName c rs1 fuel = chain.markovName c rs2 fuel := by
  have hw : chain.markovWords c rs1 fuel = chain.markovWords c rs2 fuel := by
    unfold chain.markovWords
    rw [hsel 0 kParts]
    cases chain.selectLink c kParts (rs2 0) with
    | int parts => exact namesLoop_congr c rs1 rs2 hsel fuel _ 1 []
    | str s => rfl
  unfold chain.markovName
  rw [hw]

theorem mapGet_getD_prop {κ ν : Type} [DecidableEq κ] (P : ν → Prop) (m : List (κ × ν)) (k : κ)
    (dflt : ν) (hd : P dflt) (hm : ∀ e ∈ m, P e.2) : P ((mapGet m k).getD dflt) := by
  cases h : mapGet m k with
  | none => exact hd
  | some v => exact hm (k, v) (mapGet_mem m k v h)

/-- C13 (as amended): determinism under fixed randomness and fixed walk order.
For a model `c` stored under `label`: (1) the token returned by a weighted draw
on a key is determined by the model's contents, the index delivered for the
stored total of that key and the order in which the bag of that key is walked;
(2) two draw sources that, at every draw and for every key of the model,
deliver the same index for the stored total and walk the bag in the same order
(they may differ everywhere else) make every draw return the same token and
make `GenerateName` return the same outcome. -/
theorem GenerateName_deterministic (g : generator) (label : GoString) (c : chain)
    (rs1 rs2 : Nat → Draw) (fuel : Nat) (hget : mapGet g.chains label = some c)
    (hidx : ∀ i key, (rs1 i).idx (chain.tableLen c key) = (rs2 i).idx (chain.tableLen c key))
    (horder : ∀ i key,
      (rs1 i).order ((mapGet c key).getD []) = (rs2 i).order ((mapGet c key).getD [])) :
    (∀ key d1 d2, d1.idx (chain.tableLen c key) = d2.idx (chain.tableLen c key) →
      d1.order ((mapGet c key).getD []) = d2.order ((mapGet c key).getD []) →
      chain.selectLink c key d1 = chain.selectLink c key d2) ∧
    (∀ i key, chain.selectLink c key (rs1 i) = chain.selectLink c key (rs2 i)) ∧
    g.GenerateName label rs1 fuel = g.GenerateName label rs2 fuel := by
  have hsel : ∀ i key, chain.selectLink c key (rs1 i) = chain.selectLink c key (rs2 i) :=
    fun i key => selectLink_congr c key (rs1 i) (rs2 i) (hidx i key) (horder i key)
  refine ⟨fun key d1 d2 h1 h2 => selectLink_congr c key d1 d2 h1 h2, hsel, ?_⟩
  unfold generator.GenerateName
  rw [hget]
  simp only [markovName_congr c rs1 rs2 hsel fuel]

/-- Witness for C13 (as amended): on the sample model the sources `firstDraws`
and `otherDraws` are different (they deliver different indices for the total
1000) but agree on the totals and bags of the model. -/
theorem GenerateName_deterministic_witness :
    (firstDraws 0).idx 1000 ≠ (otherDraws 0).idx 1000 ∧
    ((∀ key d1 d2,
        d1.idx (chain.tableLen sampleChain key) = d2.idx (chain.tableLen sampleChain key) →
        d1.order ((mapGet sampleChain key).getD []) = d2.order ((mapGet sampleChain key).getD []) →
        chain.selectLink sampleChain key d1 = chain.selectLink sampleChain key d2) ∧
      (∀ i key, chain.selectLink sampleChain key (firstDraws i)
        = chain.selectLink sampleChain key (otherDraws i)) ∧
      generator.GenerateName ⟨[(goString "test", sampleChain)]⟩ (goString "test") firstDraws 10
        = generator.GenerateName ⟨[(goString "test", sampleChain)]⟩ (goString "test")
            otherDraws 10) :=
  ⟨by decide,
    GenerateName_deterministic ⟨[(goString "test", sampleChain)]⟩ (goString "test") sampleChain
      firstDraws otherDraws 10 (by decide)
      (fun _ key => by
        have h : chain.tableLen sampleChain key ≤ 4 := by
          unfold chain.tableLen
          have htl : mapGet sampleChain kTableLen
              = some [(Token.str kParts, 4), (Token.str kNameLen, 4), (Token.str kInitial, 3),
                  (Token.str [65], 2), (Token.str [66], 1)] := by decide
          rw [htl]
          simp only [Option.some_bind]
          exact mapGet_getD_prop (fun v => v ≤ 4) _ _ 0 (Nat.zero_le _) (by decide)
        have hne : chain.tableLen sampleChain key ≠ 1000 := by omega
        simp [firstDraws, otherDraws, hne])
      (fun _ key => by
        have h : ((mapGet sampleChain key).getD []).length ≤ 5 :=
          mapGet_getD_prop (fun v : Bag => v.length ≤ 5) sampleChain key [] (Nat.zero_le _)
            (by decide)
        have hnot : ¬ 5 < ((mapGet sampleChain key).getD []).length := by omega
        simp [firstDraws, otherDraws, hnot])⟩

end NameGenerator
